import Mathlib

/-!
# Verification of the Acme Dental infrastructure deployment pipeline

This development embeds the deployment model of the repository: the four
CDK stacks declared in src/app.py (Dns, CiCd, App, Monitoring) together
with the orchestration core described by the specification (dependency
graph and ordering, output store and reference resolution, reconciler,
orchestrator driver).  The orchestration core itself is not implemented
under src/ (the source is a declarative CDK assembly), so its operations
are modelled from the specification, faithful to its words; the
stack-level facts (the monitoring bucket construction and the CI/CD
trust policies) are embedded from the Python source.
-/

namespace AcmeDental

/-- Modelled from the spec: a Reference is a pointer `(stackName, outputName)`
to a value produced by another stack. -/
structure Reference where
  stackName : String
  outputName : String
deriving DecidableEq, Repr

/-- Modelled from the spec: a configuration attribute value is either a
literal or a cross-stack Reference. -/
inductive ConfigValue where
  | lit (value : String)
  | ref (r : Reference)
deriving DecidableEq, Repr

/-- Modelled from the spec: one desired cloud resource — stable id, a type
tag, an attribute configuration and same-stack ordering dependencies. -/
structure ResourceSpec where
  id : String
  rtype : String
  config : List (String × ConfigValue)
  dependsOn : List String
deriving DecidableEq, Repr

/-- Modelled from the spec: a Stack is a named ordered collection of
resource specifications, a set of required input references, and a set of
produced outputs, each mapping an output name to `(resource id, attribute)`. -/
structure StackDef where
  name : String
  resources : List ResourceSpec
  requiredInputs : List Reference
  producedOutputs : List (String × String × String)
deriving DecidableEq, Repr

/-- Does stack `s` declare an output named `outputName`? -/
def declaresOutput (s : StackDef) (outputName : String) : Bool :=
  s.producedOutputs.any (fun o => o.1 == outputName)

/-- Find the stack with the given name (first match, names are unique). -/
def findStack (ss : List StackDef) (name : String) : Option StackDef :=
  ss.find? (fun s => s.name == name)

/-- A reference is known when a declared stack produces the named output. -/
def referenceKnown (ss : List StackDef) (r : Reference) : Bool :=
  match findStack ss r.stackName with
  | some p => declaresOutput p r.outputName
  | none   => false

/-- All references to undeclared stacks or undeclared outputs, each paired
with the name of the consuming stack that makes the reference. -/
def unknownReferences (ss : List StackDef) : List (String × Reference) :=
  ss.flatMap (fun s =>
    (s.requiredInputs.filter (fun r => !referenceKnown ss r)).map
      (fun r => (s.name, r)))

/-- The dependency edges, one `(producer, consumer)` pair per required
input reference: stack A requiring an output of stack B yields edge B→A. -/
def edgeList (ss : List StackDef) : List (String × String) :=
  ss.flatMap (fun s => s.requiredInputs.map (fun r => (r.stackName, s.name)))

/-- The dependency-graph edge relation: `Edge ss b a` holds when some
stack named `a` requires an output of the stack named `b`. -/
def Edge (ss : List StackDef) (b a : String) : Prop :=
  (b, a) ∈ edgeList ss

instance (ss : List StackDef) (b a : String) : Decidable (Edge ss b a) := by
  unfold Edge; infer_instance

/-- The names of the declared stacks, in declaration order. -/
def stackNames (ss : List StackDef) : List String :=
  ss.map (fun s => s.name)

/-- Successors of a node set under the edge list: every consumer whose
producer lies in the set. -/
def stepSucc (edges : List (String × String)) (S : Finset String) : Finset String :=
  S ∪ ((edges.filter (fun e => e.1 ∈ S)).map Prod.snd).toFinset

/-- Direct successors of one node. -/
def succOf (edges : List (String × String)) (v : String) : Finset String :=
  ((edges.filter (fun e => e.1 == v)).map Prod.snd).toFinset

/-- Nodes reachable from the seed set in at most `fuel` further steps. -/
def reachClosure (edges : List (String × String)) (fuel : Nat) (S : Finset String) :
    Finset String :=
  (stepSucc edges)^[fuel] S

/-- Is `v` on a reference cycle?  Computed by closing its successor set
under the edge relation and asking whether `v` reappears. -/
def onCycle (ss : List StackDef) (v : String) : Bool :=
  v ∈ reachClosure (edgeList ss) ((stackNames ss).length + 1)
        (succOf (edgeList ss) v)

/-- The member stacks of reference cycles, in declaration order. -/
def cycleMembers (ss : List StackDef) : List String :=
  (stackNames ss).filter (fun v => onCycle ss v)

/-- Modelled from the spec: build-time errors of graph construction —
a reference to an undeclared stack or output, or a reference cycle
naming the cycle's member stacks. -/
inductive GraphError where
  | unknownReference (stackName : String) (r : Reference)
  | cycleError (members : List String)
deriving DecidableEq, Repr

/-- A stack is ready when it is not yet placed and every stack it
references is already placed. -/
def ready (placed : List String) (s : StackDef) : Bool :=
  !placed.contains s.name && s.requiredInputs.all (fun r => placed.contains r.stackName)

/-- The next stack to place: the first ready stack in declaration order
(Kahn's algorithm with ties broken by declaration order). -/
def pickNext (ss : List StackDef) (placed : List String) : Option StackDef :=
  ss.find? (ready placed)

/-- Modelled from the spec: the Kahn loop.  Repeatedly places the first
ready stack; when no stack is ready and some remain, the stack set has a
cycle and the loop fails with the cycle's member stacks. -/
def kahnLoop (ss : List StackDef) : Nat → List String → Except GraphError (List String)
  | 0, acc =>
    if ss.all (fun s => acc.contains s.name) then .ok acc
    else .error (.cycleError (cycleMembers ss))
  | fuel + 1, acc =>
    if ss.all (fun s => acc.contains s.name) then .ok acc
    else
      match pickNext ss acc with
      | some s => kahnLoop ss fuel (acc ++ [s.name])
      | none => .error (.cycleError (cycleMembers ss))

/-- Modelled from the spec: `buildGraph` over the stack set.  Checks
every required-input reference against the declared stacks and outputs
(UnknownReference is a build-time error), then computes a topological
order, failing with CycleError when stacks participate in a cycle. -/
def buildGraph (ss : List StackDef) : Except GraphError (List String) :=
  match unknownReferences ss with
  | (sn, r) :: _ => .error (.unknownReference sn r)
  | [] => kahnLoop ss ss.length []

/-- The spec scenario, wired as in src/app.py: Dns first, CiCd
independent, App consuming Dns outputs, Monitoring consuming App's
distribution id.  Dns produces hostedZoneId "Z123" and certificateArn
"arn:cert:1"; App produces distributionId "E456". -/
def dnsStack : StackDef :=
  { name := "Dns"
    resources := [⟨"zone", "HostedZone",
                    [("hostedZoneId", .lit "Z123"), ("certificateArn", .lit "arn:cert:1")], []⟩]
    requiredInputs := []
    producedOutputs := [("hostedZoneId", "zone", "hostedZoneId"),
                        ("certificateArn", "zone", "certificateArn")] }

/-- The CiCd stack of src/app.py: no cross-stack inputs, no outputs. -/
def cicdStack : StackDef :=
  { name := "CiCd"
    resources := [⟨"roles", "GitHubOidcRoles", [("provider", .lit "github")], []⟩]
    requiredInputs := []
    producedOutputs := [] }

/-- The App stack: requires both Dns outputs, produces the CloudFront
distribution id "E456". -/
def appStack : StackDef :=
  { name := "App"
    resources := [⟨"dist", "Distribution",
                    [("hostedZoneId", .ref ⟨"Dns", "hostedZoneId"⟩),
                     ("certificateArn", .ref ⟨"Dns", "certificateArn"⟩),
                     ("distributionId", .lit "E456")], []⟩]
    requiredInputs := [⟨"Dns", "hostedZoneId"⟩, ⟨"Dns", "certificateArn"⟩]
    producedOutputs := [("distributionId", "dist", "distributionId")] }

/-- The Monitoring stack: requires App's distribution id. -/
def monitoringStack : StackDef :=
  { name := "Monitoring"
    resources := [⟨"canary", "HealthCanary",
                    [("distributionId", .ref ⟨"App", "distributionId"⟩)], []⟩]
    requiredInputs := [⟨"App", "distributionId"⟩]
    producedOutputs := [] }

/-- The four stacks in the declaration order of src/app.py. -/
def scenarioStacks : List StackDef :=
  [dnsStack, cicdStack, appStack, monitoringStack]

/-- Modelled from the spec: the Output Store, a run-scoped mapping from
`(stackName, outputName)` to the resolved value, append-only. -/
abbrev OutputStore := List ((String × String) × String)

/-- Live state of the target environment: for each `(stackName,
resourceId)` key, the materialized attribute map of that resource. -/
abbrev Live := List ((String × String) × List (String × String))

/-- First binding of a `(stackName, resourceId)`-style key in an
association list keyed by string pairs. -/
def keyFind {β : Type} (l : List ((String × String) × β)) (k : String × String) : Option β :=
  (l.find? (fun p => p.1.1 == k.1 && p.1.2 == k.2)).map (fun p => p.2)

/-- Look a reference up in the Output Store. -/
def storeFind (store : OutputStore) (r : Reference) : Option String :=
  keyFind store (r.stackName, r.outputName)

/-- First binding of a string key in an attribute map. -/
def strLookup (l : List (String × String)) (k : String) : Option String :=
  (l.find? (fun p => p.1 == k)).map (fun p => p.2)

/-- Modelled from the spec: failure causes of one stack's reconciliation —
a provider-reported failure, a configuration value whose reference was not
materialized, or a declared output that cannot be read off live state. -/
inductive ReconcileFailure where
  | injected (msg : String)
  | unresolvedConfigValue (resourceId : String)
  | missingOutput (outputName : String)
deriving DecidableEq, Repr

/-- Modelled from the spec: `resolve(requiredInputs, store)` — looks every
required reference up in the Output Store and fails fast on the first
unresolved one; resolution never invents a default value. -/
def resolve : List Reference → OutputStore → Except Reference (List (Reference × String))
  | [], _ => .ok []
  | r :: rest, store =>
    match storeFind store r with
    | none => .error r
    | some v =>
      match resolve rest store with
      | .error e => .error e
      | .ok tl => .ok ((r, v) :: tl)

/-- Look a reference up among the resolved inputs. -/
def refLookup (resolved : List (Reference × String)) (r : Reference) : Option String :=
  (resolved.find? (fun p => p.1 = r)).map (fun p => p.2)

/-- Substitute resolved inputs into one configuration value. -/
def materializeValue (resolved : List (Reference × String)) : ConfigValue → Option String
  | .lit v => some v
  | .ref r => refLookup resolved r

/-- Modelled from the spec: materialize a resource configuration into a
fully literal desired state; any remaining unresolved reference fails. -/
def materializeConfig (resolved : List (Reference × String)) :
    List (String × ConfigValue) → Option (List (String × String))
  | [] => some []
  | (k, v) :: rest =>
    match materializeValue resolved v with
    | none => none
    | some w =>
      match materializeConfig resolved rest with
      | none => none
      | some tl => some ((k, w) :: tl)

/-- Record the materialized attributes of one resource in live state,
replacing any previous binding of the same key. -/
def liveSet (live : Live) (k : String × String) (v : List (String × String)) : Live :=
  (k, v) :: live.filter (fun p => !(p.1.1 == k.1 && p.1.2 == k.2))

/-- Modelled from the spec: the Reconciler's diff-and-apply pass.  For each
resource, fetch its live state and classify it as Create (absent), Update
(differing) or Unchanged (identical); creates and updates converge live
state to the desired configuration.  Returns the created, updated and
unchanged resource ids and the final live state. -/
def applyResources (stackName : String) (resolved : List (Reference × String)) :
    List ResourceSpec → Live →
    Except ReconcileFailure (List String × List String × List String × Live)
  | [], live => .ok ([], [], [], live)
  | r :: rest, live =>
    match materializeConfig resolved r.config with
    | none => .error (.unresolvedConfigValue r.id)
    | some desired =>
      match keyFind live (stackName, r.id) with
      | none =>
        match applyResources stackName resolved rest (liveSet live (stackName, r.id) desired) with
        | .error e => .error e
        | .ok (cr, up, un, live') => .ok (r.id :: cr, up, un, live')
      | some attrs =>
        if attrs = desired then
          match applyResources stackName resolved rest live with
          | .error e => .error e
          | .ok (cr, up, un, live') => .ok (cr, up, r.id :: un, live')
        else
          match applyResources stackName resolved rest (liveSet live (stackName, r.id) desired) with
          | .error e => .error e
          | .ok (cr, up, un, live') => .ok (cr, r.id :: up, un, live')

/-- Modelled from the spec: compute a stack's produced outputs by reading
the named attributes off the now-live resources. -/
def readOutputs (stackName : String) (live : Live) :
    List (String × String × String) → Except ReconcileFailure (List (String × String))
  | [] => .ok []
  | (oname, rid, attr) :: rest =>
    match keyFind live (stackName, rid) with
    | none => .error (.missingOutput oname)
    | some attrs =>
      match strLookup attrs attr with
      | none => .error (.missingOutput oname)
      | some v =>
        match readOutputs stackName live rest with
        | .error e => .error e
        | .ok tl => .ok ((oname, v) :: tl)

/-- The result of one stack's reconciliation: the applied operations, the
produced outputs and the updated live state. -/
structure ReconcileResult where
  created : List String
  updated : List String
  unchangedIds : List String
  outputs : List (String × String)
  newLive : Live
deriving Repr

/-- Modelled from the spec: `apply(stack, resolvedInputs)` — materialize
the configuration, diff against live state, apply the needed operations
and emit the produced outputs.  `inject` stands for the external provider:
it reports a failure message for stacks whose reconciliation fails. -/
def reconcileStack (inject : String → Option String) (s : StackDef)
    (resolved : List (Reference × String)) (live : Live) :
    Except ReconcileFailure ReconcileResult :=
  match inject s.name with
  | some msg => .error (.injected msg)
  | none =>
    match applyResources s.name resolved s.resources live with
    | .error e => .error e
    | .ok (cr, up, un, live') =>
      match readOutputs s.name live' s.producedOutputs with
      | .error e => .error e
      | .ok outs => .ok ⟨cr, up, un, outs, live'⟩

/-- Terminal status of a stack in the deployment report. -/
inductive StackStatus where
  | succeeded
  | failed
  | skipped
deriving DecidableEq, Repr

/-- Why a stack did not succeed. -/
inductive FailReason where
  | unresolvedReference (r : Reference)
  | unknownStack
  | reconcile (e : ReconcileFailure)
  | upstreamFailure
deriving DecidableEq, Repr

/-- One line of the deployment report: the stack, its terminal status, the
operations applied, the inputs it resolved, and the failure reason if any. -/
structure ReportEntry where
  stackName : String
  status : StackStatus
  created : List String
  updated : List String
  unchangedIds : List String
  resolvedInputs : List (Reference × String)
  reason : Option FailReason
deriving DecidableEq, Repr

/-- The orchestrator's running state: live environment state, the Output
Store, the report so far, and whether the pipeline has halted. -/
structure RunState where
  live : Live
  store : OutputStore
  report : List ReportEntry
  halted : Bool

/-- The report entry of a stack skipped because of an upstream failure. -/
def skippedEntry (name : String) : ReportEntry :=
  ⟨name, .skipped, [], [], [], [], some .upstreamFailure⟩

/-- Modelled from the spec: one turn of the orchestrator loop.  Skip
everything once halted; otherwise resolve inputs from the Output Store,
reconcile, and on success record the outputs and mark Succeeded; on
failure mark Failed and halt the remaining pipeline. -/
def deployStep (ss : List StackDef) (inject : String → Option String)
    (st : RunState) (name : String) : RunState :=
  if st.halted then
    { st with report := st.report ++ [skippedEntry name] }
  else
    match findStack ss name with
    | none =>
      { st with report := st.report ++ [⟨name, .failed, [], [], [], [], some .unknownStack⟩],
                halted := true }
    | some s =>
      match resolve s.requiredInputs st.store with
      | .error r =>
        { st with
            report := st.report ++ [⟨name, .failed, [], [], [], [], some (.unresolvedReference r)⟩],
            halted := true }
      | .ok resolved =>
        match reconcileStack inject s resolved st.live with
        | .error e =>
          { st with
              report := st.report ++ [⟨name, .failed, [], [], [], resolved, some (.reconcile e)⟩],
              halted := true }
        | .ok res =>
          { live := res.newLive,
            store := st.store ++ res.outputs.map (fun o => ((s.name, o.1), o.2)),
            report := st.report ++
              [⟨name, .succeeded, res.created, res.updated, res.unchangedIds, resolved, none⟩],
            halted := false }

/-- The orchestrator loop over a computed deployment order. -/
def deployLoop (ss : List StackDef) (inject : String → Option String)
    (order : List String) (st : RunState) : RunState :=
  order.foldl (deployStep ss inject) st

/-- The initial run state over a given live environment: empty run-scoped
Output Store, empty report, pipeline not halted. -/
def initState (live₀ : Live) : RunState :=
  ⟨live₀, [], [], false⟩

/-- Modelled from the spec: `deploy(stacks) → DeploymentReport`.  Computes
the order via buildGraph (build-time errors abort before any
reconciliation), then drives the orchestrator loop. -/
def deploy (ss : List StackDef) (inject : String → Option String) (live₀ : Live) :
    Except GraphError RunState :=
  match buildGraph ss with
  | .error e => .error e
  | .ok order => .ok (deployLoop ss inject order (initState live₀))

/-- Modelled from the spec: the two classes of reconcile errors — Transient
(retryable) and Permanent (bad config, permission denial; never retried). -/
inductive RErrKind where
  | transient
  | permanent
deriving DecidableEq, Repr

/-- Outcome of a retried reconciliation: the final result, the index of the
last attempt made (= the number of retries observed), and the backoff
delays that were waited between attempts. -/
structure RetryResult (α : Type) where
  outcome : Except RErrKind α
  retries : Nat
  delays : List Nat
deriving Repr

/-- Modelled from the spec: the bounded exponential-backoff retry loop.
Attempt `attempt` runs; success or a Permanent error returns immediately,
a Transient error waits `base * 2 ^ attempt` and retries while the retry
budget lasts, and exhausting the budget escalates the Transient error. -/
def attemptFrom {α : Type} (f : Nat → Except RErrKind α) (base : Nat) :
    Nat → Nat → List Nat → RetryResult α
  | attempt, 0, delays =>
    match f attempt with
    | .ok a => ⟨.ok a, attempt, delays.reverse⟩
    | .error .permanent => ⟨.error .permanent, attempt, delays.reverse⟩
    | .error .transient => ⟨.error .transient, attempt, delays.reverse⟩
  | attempt, b + 1, delays =>
    match f attempt with
    | .ok a => ⟨.ok a, attempt, delays.reverse⟩
    | .error .permanent => ⟨.error .permanent, attempt, delays.reverse⟩
    | .error .transient => attemptFrom f base (attempt + 1) b (base * 2 ^ attempt :: delays)

/-- Modelled from the spec: run a reconciliation with up to `maxRetries`
retries after the first attempt, exponential backoff starting at `base`. -/
def runWithRetry {α : Type} (f : Nat → Except RErrKind α) (base maxRetries : Nat) :
    RetryResult α :=
  attemptFrom f base 0 maxRetries []

/-- The stack status a retried reconciliation outcome maps to. -/
def retryStatus {α : Type} (r : RetryResult α) : StackStatus :=
  match r.outcome with
  | .ok _ => .succeeded
  | .error _ => .failed

/-- Modelled from the aws_cdk library (not part of src/): the public
attributes of the `Stack` class, as exposed to Python's `hasattr`.  The
class exposes no `removal_policy` attribute — removal policies exist on
resources, not on stacks. -/
def stackClassAttributes : List String :=
  ["account", "artifact_id", "availability_zones", "bundling_required",
   "dependencies", "environment", "nested", "nested_stack_parent",
   "nested_stack_resource", "node", "notification_arns", "partition",
   "region", "stack_id", "stack_name", "synthesizer", "tags",
   "template_file", "template_options", "termination_protection",
   "url_suffix", "add_dependency", "export_value", "format_arn",
   "get_logical_id", "rename_logical_id", "report_missing_context_key",
   "resolve", "to_json_string", "to_yaml_string"]

/-- Python's `hasattr(Stack.of(self), attr)` over the modelled class. -/
def stackHasattr (attr : String) : Bool :=
  stackClassAttributes.contains attr

/-- Python's `getattr` over the modelled Stack class: the attribute's
value when present, nothing otherwise. -/
def stackGetattr (attr : String) : Option String :=
  if stackClassAttributes.contains attr then some ("Stack." ++ attr) else none

/-- The S3 bucket properties relevant to the CanaryArtifacts bucket. -/
structure BucketProps where
  bucket_name : String
  auto_delete_objects : Bool
  removal_policy : Option String
deriving DecidableEq, Repr

/-- The CanaryArtifacts bucket construction of
src/stacks/monitoring_stack.py lines 60-68: bucket name derived from the
account, auto_delete_objects=True, and removal_policy set to
Stack.of(self).removal_policy when the guard
hasattr(Stack.of(self), "removal_policy") holds, None otherwise. -/
def canaryBucketProps (account : String) : BucketProps :=
  { bucket_name := "acme-dental-canary-" ++ account
    auto_delete_objects := true
    removal_policy :=
      if stackHasattr "removal_policy" then stackGetattr "removal_policy" else none }

/-- AWS IAM StringLike glob matching over character lists: a star matches
any run of characters, a question mark matches exactly one. -/
def globMatch (p s : List Char) : Bool :=
  match p, s with
  | [], [] => true
  | [], _ :: _ => false
  | q :: ps, [] => if q = '*' then globMatch ps [] else false
  | q :: ps, c :: s' =>
    if q = '*' then globMatch ps (c :: s') || globMatch (q :: ps) s'
    else if q = '?' then globMatch ps s'
    else (q == c) && globMatch ps s'
termination_by (p.length, s.length)

/-- AWS IAM StringLike condition matching on strings. -/
def stringLikeMatch (pattern s : String) : Bool :=
  globMatch pattern.data s.data

/-- A string free of the StringLike wildcards. -/
def noWildcards (x : String) : Bool :=
  x.data.all (fun c => !(c == '*' || c == '?'))

/-- The trust policy of a federated role as assembled by iam.Role with an
iam.FederatedPrincipal in src/stacks/cicd_stack.py: the federated
principal, the single allowed assume-role action, a StringEquals condition
on the token audience and a StringLike condition on the token subject. -/
structure FederatedTrust where
  federated : String
  assumeRoleAction : String
  audEquals : String
  subLike : String
deriving DecidableEq, Repr

/-- The `_repo_role` helper of src/stacks/cicd_stack.py lines 44-68: a
role trusted by the GitHub OIDC provider via sts:AssumeRoleWithWebIdentity,
with audience sts.amazonaws.com and subject pattern
repo:{github_org}/{repo_name}:ref:refs/heads/main. -/
def repoRoleTrust (oidcProviderArn github_org repo_name : String) : FederatedTrust :=
  { federated := oidcProviderArn
    assumeRoleAction := "sts:AssumeRoleWithWebIdentity"
    audEquals := "sts.amazonaws.com"
    subLike := "repo:" ++ github_org ++ "/" ++ repo_name ++ ":ref:refs/heads/main" }

/-- The three deploy roles created by CiCdStack, each with the repository
it is restricted to and its trust policy: backend (lines 71-75), frontend
(lines 120-124), infra (lines 146-150). -/
def cicdRoleTrusts (oidcProviderArn github_org backend_repo frontend_repo infra_repo : String) :
    List (String × String × FederatedTrust) :=
  [("BackendDeployRole", backend_repo, repoRoleTrust oidcProviderArn github_org backend_repo),
   ("FrontendDeployRole", frontend_repo, repoRoleTrust oidcProviderArn github_org frontend_repo),
   ("InfraDeployRole", infra_repo, repoRoleTrust oidcProviderArn github_org infra_repo)]

/-- Does the trust policy permit this assume request?  The principal must
be the federated provider, the action the policy's single action, and the
token's audience and subject must satisfy the two conditions. -/
def trustAllows (t : FederatedTrust) (principalArn action aud sub : String) : Bool :=
  principalArn == t.federated && action == t.assumeRoleAction &&
    aud == t.audEquals && stringLikeMatch t.subLike sub

/-- Modelled from the spec: a stack set has a reference cycle when some
stack transitively requires an output of itself. -/
def HasCycle (ss : List StackDef) : Prop :=
  ∃ v, Relation.TransGen (Edge ss) v v

/-- A deployment order is topological: every stack appears, and appears
strictly after every stack whose outputs it references. -/
def placesAfterProducers (ss : List StackDef) (order : List String) : Prop :=
  ∀ s ∈ ss, s.name ∈ order ∧ ∀ r ∈ s.requiredInputs,
    r.stackName ∈ order ∧ order.indexOf r.stackName < order.indexOf s.name

/-- Every required-input reference of every stack resolves to a declared
stack and a declared output. -/
def knownRefsB (ss : List StackDef) : Bool :=
  ss.all (fun s => s.requiredInputs.all (fun r => referenceKnown ss r))

/-- Every declared produced output points at an existing resource of its
stack and an attribute present in that resource's configuration. -/
def wellFormedOutputsB (ss : List StackDef) : Bool :=
  ss.all (fun s => s.producedOutputs.all (fun o =>
    s.resources.any (fun res => res.id == o.2.1 && res.config.any (fun kv => kv.1 == o.2.2))))

/-- Every cross-stack reference inside a resource configuration is one of
the owning stack's declared required inputs. -/
def configRefsDeclaredB (ss : List StackDef) : Bool :=
  ss.all (fun s => s.resources.all (fun res => res.config.all (fun kv =>
    match kv.2 with
    | .lit _ => true
    | .ref r => s.requiredInputs.any (fun r2 => decide (r2 = r)))))

/-- Resource ids are unique within their owning stack. -/
def nodupIdsB (ss : List StackDef) : Bool :=
  ss.all (fun s => decide ((s.resources.map (fun res => res.id)).Nodup))

/-- Produced output names are unique within their owning stack. -/
def nodupOutputsB (ss : List StackDef) : Bool :=
  ss.all (fun s => decide ((s.producedOutputs.map (fun o => o.1)).Nodup))

/-- A two-stack set whose references form a cycle: A requires an output
of B and B requires an output of A. -/
def cyclicStacks : List StackDef :=
  [{ name := "A", resources := [], requiredInputs := [⟨"B", "b"⟩],
     producedOutputs := [("a", "x", "y")] },
   { name := "B", resources := [], requiredInputs := [⟨"A", "a"⟩],
     producedOutputs := [("b", "x", "y")] }]

/-- A stack set with a dangling reference: X requires an output of a
stack that no one declares. -/
def badRefStacks : List StackDef :=
  [{ name := "X", resources := [], requiredInputs := [⟨"Ghost", "g"⟩],
     producedOutputs := [] }]

/-- The report of a run so far: before any failure everything is
Succeeded; after the first failure the report is the succeeded prefix,
the single failed entry, and skipped entries for everything after. -/
def reportShape (report : List ReportEntry) : Bool → Prop
  | false => ∀ e ∈ report, e.status = .succeeded
  | true => ∃ pre f post, report = pre ++ f :: post ∧
      (∀ e ∈ pre, e.status = .succeeded) ∧ f.status = .failed ∧
      ∀ e ∈ post, ∃ n, e = skippedEntry n

/-- Every stack reported Succeeded has all of its declared outputs
recorded in the Output Store. -/
def storeRecords (ss : List StackDef) (st : RunState) : Prop :=
  ∀ e ∈ st.report, e.status = .succeeded →
    ∀ s ∈ ss, s.name = e.stackName →
      ∀ o ∈ s.producedOutputs, ∃ v, storeFind st.store ⟨s.name, o.1⟩ = some v

/-- Every output of every stack already processed is recorded. -/
def storeCovers (ss : List StackDef) (done : List String) (store : OutputStore) : Prop :=
  ∀ sp ∈ ss, sp.name ∈ done → ∀ o ∈ sp.producedOutputs,
    ∃ v, storeFind store ⟨sp.name, o.1⟩ = some v

/-- The concrete first run of the wired scenario: no provider failures,
starting from an empty live environment. -/
def scenarioRun1 : RunState :=
  deployLoop scenarioStacks (fun _ => none) ["Dns", "CiCd", "App", "Monitoring"]
    (initState [])

/-- The concrete second run: same desired state, against the live state
the first run converged to. -/
def scenarioRun2 : RunState :=
  deployLoop scenarioStacks (fun _ => none) ["Dns", "CiCd", "App", "Monitoring"]
    (initState scenarioRun1.live)

/-! ## Theorems -/

/-- C1: for the concrete deployment of src/app.py (stacks Dns, CiCd, App,
Monitoring with the spec scenario's outputs), the computed deployment
order places Dns and CiCd first, then App, then Monitoring, and
Monitoring's resolved input for the distribution identifier equals
exactly the value "E456" that App produced as its distributionId
output. -/
theorem scenario_order_and_resolution :
    buildGraph scenarioStacks = .ok ["Dns", "CiCd", "App", "Monitoring"] ∧
    (∀ order, buildGraph scenarioStacks = .ok order →
      order.indexOf "Dns" < order.indexOf "App" ∧
      order.indexOf "CiCd" < order.indexOf "App" ∧
      order.indexOf "App" < order.indexOf "Monitoring") ∧
    (∃ st, deploy scenarioStacks (fun _ => none) [] = .ok st ∧
      storeFind st.store ⟨"App", "distributionId"⟩ = some "E456" ∧
      ∃ e ∈ st.report, e.stackName = "Monitoring" ∧ e.status = .succeeded ∧
        e.resolvedInputs = [(⟨"App", "distributionId"⟩, "E456")]) := by
  refine ⟨rfl, ?_, ?_⟩
  · intro order h
    have h' : buildGraph scenarioStacks = .ok ["Dns", "CiCd", "App", "Monitoring"] := rfl
    rw [h'] at h
    obtain rfl : ["Dns", "CiCd", "App", "Monitoring"] = order := (Except.ok.injEq _ _).mp h
    decide
  · exact ⟨deployLoop scenarioStacks (fun _ => none) ["Dns", "CiCd", "App", "Monitoring"]
      (initState []), rfl, by decide, by decide⟩

/-- One step of the retry loop: a successful attempt returns at once. -/
theorem attemptFrom_ok {α : Type} {f : Nat → Except RErrKind α} {a : α}
    (base attempt budget : Nat) (delays : List Nat) (h : f attempt = .ok a) :
    attemptFrom f base attempt budget delays = ⟨.ok a, attempt, delays.reverse⟩ := by
  cases budget <;> simp [attemptFrom, h]

/-- One step of the retry loop: a Permanent error fails at once. -/
theorem attemptFrom_permanent {α : Type} {f : Nat → Except RErrKind α}
    (base attempt budget : Nat) (delays : List Nat) (h : f attempt = .error .permanent) :
    attemptFrom f base attempt budget delays = ⟨.error .permanent, attempt, delays.reverse⟩ := by
  cases budget <;> simp [attemptFrom, h]

/-- One step of the retry loop: a Transient error with no budget left
escalates. -/
theorem attemptFrom_transient_zero {α : Type} {f : Nat → Except RErrKind α}
    (base attempt : Nat) (delays : List Nat) (h : f attempt = .error .transient) :
    attemptFrom f base attempt 0 delays = ⟨.error .transient, attempt, delays.reverse⟩ := by
  simp [attemptFrom, h]

/-- One step of the retry loop: a Transient error with budget left waits
the exponential backoff delay and retries. -/
theorem attemptFrom_transient_succ {α : Type} {f : Nat → Except RErrKind α}
    (base attempt b : Nat) (delays : List Nat) (h : f attempt = .error .transient) :
    attemptFrom f base attempt (b + 1) delays =
      attemptFrom f base (attempt + 1) b (base * 2 ^ attempt :: delays) := by
  simp [attemptFrom, h]

/-- C8: retry policy.  A reconciliation that is Transient on attempt 1 and
succeeds on attempt 2 ends Succeeded with exactly one retry observed;
Transient errors are retried with bounded exponential backoff and
exhausting the retry budget escalates to Failed; a Permanent error fails
immediately with no retry. -/
theorem retry_policy {α : Type} (f g p : Nat → Except RErrKind α) (v : α)
    (base m mg mp : Nat)
    (hf0 : f 0 = .error .transient) (hf1 : f 1 = .ok v) (hm : 1 ≤ m)
    (hg : ∀ n, g n = .error .transient) (hp : p 0 = .error .permanent) :
    (runWithRetry f base m = ⟨.ok v, 1, [base]⟩ ∧
      retryStatus (runWithRetry f base m) = .succeeded) ∧
    (runWithRetry g base mg =
        ⟨.error .transient, mg, (List.range mg).map (fun i => base * 2 ^ i)⟩ ∧
      retryStatus (runWithRetry g base mg) = .failed) ∧
    (runWithRetry p base mp = ⟨.error .permanent, 0, []⟩ ∧
      retryStatus (runWithRetry p base mp) = .failed) := by
  have htrans : ∀ b a acc, attemptFrom g base a b acc =
      ⟨.error .transient, a + b, acc.reverse ++ (List.range' a b).map (fun i => base * 2 ^ i)⟩ := by
    intro b
    induction b with
    | zero =>
      intro a acc
      rw [attemptFrom_transient_zero base a acc (hg a)]
      simp
    | succ b ih =>
      intro a acc
      rw [attemptFrom_transient_succ base a b acc (hg a),
        ih (a + 1) (base * 2 ^ a :: acc), List.range'_succ]
      simp [Nat.add_comm, Nat.add_assoc, Nat.add_left_comm]
  obtain ⟨b, rfl⟩ : ∃ b, m = b + 1 := ⟨m - 1, (Nat.succ_pred_eq_of_pos hm).symm⟩
  refine ⟨?_, ?_, ?_⟩
  · have h : runWithRetry f base (b + 1) = ⟨.ok v, 1, [base]⟩ := by
      rw [runWithRetry, attemptFrom_transient_succ base 0 b [] hf0,
        attemptFrom_ok base 1 b (base * 2 ^ 0 :: []) hf1]
      simp
    exact ⟨h, by rw [h]; rfl⟩
  · have h : runWithRetry g base mg =
        ⟨.error .transient, mg, (List.range mg).map (fun i => base * 2 ^ i)⟩ := by
      rw [runWithRetry, htrans mg 0 []]
      simp [List.range_eq_range']
    exact ⟨h, by rw [h]; rfl⟩
  · have h : runWithRetry p base mp = ⟨.error .permanent, 0, []⟩ := by
      rw [runWithRetry, attemptFrom_permanent base 0 mp [] hp]
      rfl
    exact ⟨h, by rw [h]; rfl⟩

/-- Witness for C8 at concrete inputs: a simulated rate limit that clears
on the second attempt, an always-transient provider, and a permanent
misconfiguration. -/
theorem retry_policy_witness :
    (runWithRetry (fun n => if n = 0 then .error .transient else .ok (42 : Nat)) 100 3 =
        ⟨.ok 42, 1, [100]⟩ ∧
      retryStatus (runWithRetry (fun n => if n = 0 then .error .transient else .ok (42 : Nat))
        100 3) = .succeeded) ∧
    (runWithRetry (fun _ => .error .transient : Nat → Except RErrKind Nat) 100 2 =
        ⟨.error .transient, 2, (List.range 2).map (fun i => 100 * 2 ^ i)⟩ ∧
      retryStatus (runWithRetry (fun _ => .error .transient : Nat → Except RErrKind Nat)
        100 2) = .failed) ∧
    (runWithRetry (fun _ => .error .permanent : Nat → Except RErrKind Nat) 100 5 =
        ⟨.error .permanent, 0, []⟩ ∧
      retryStatus (runWithRetry (fun _ => .error .permanent : Nat → Except RErrKind Nat)
        100 5) = .failed) :=
  retry_policy (fun n => if n = 0 then .error .transient else .ok (42 : Nat))
    (fun _ => .error .transient) (fun _ => .error .permanent) 42 100 3 2 5
    (by rfl) (by rfl) (by decide) (fun _ => rfl) (by rfl)

/-- C9: the guard hasattr(Stack.of(self), "removal_policy") in
src/stacks/monitoring_stack.py is false — the Stack class exposes no
removal_policy attribute — so the CanaryArtifacts bucket is always
constructed with removal_policy None even though auto_delete_objects is
requested. -/
theorem canary_bucket_removal_policy :
    stackHasattr "removal_policy" = false ∧
    ∀ account : String,
      (canaryBucketProps account).removal_policy = none ∧
      (canaryBucketProps account).auto_delete_objects = true ∧
      (canaryBucketProps account).bucket_name = "acme-dental-canary-" ++ account := by
  refine ⟨by decide, fun account => ⟨?_, rfl, rfl⟩⟩
  have h : stackHasattr "removal_policy" = false := by decide
  simp [canaryBucketProps, h]

/-- A glob pattern without wildcards matches exactly itself. -/
theorem globMatch_exact {p : List Char} (hp : ∀ c ∈ p, ¬(c = '*' ∨ c = '?')) :
    ∀ s : List Char, globMatch p s = true ↔ s = p := by
  induction p with
  | nil => intro s; cases s <;> simp [globMatch]
  | cons q ps ih =>
    have hq : ¬(q = '*' ∨ q = '?') := hp q (by simp)
    have h1 : ¬q = '*' := fun h => hq (Or.inl h)
    have h2 : ¬q = '?' := fun h => hq (Or.inr h)
    have hps : ∀ c ∈ ps, ¬(c = '*' ∨ c = '?') := fun c hc => hp c (List.mem_cons_of_mem _ hc)
    intro s
    cases s with
    | nil => simp [globMatch, h1]
    | cons c s' =>
      rw [globMatch]
      simp only [if_neg h1, if_neg h2, Bool.and_eq_true, beq_iff_eq, ih hps s',
        List.cons.injEq]
      constructor
      · rintro ⟨rfl, rfl⟩; exact ⟨rfl, rfl⟩
      · rintro ⟨rfl, rfl⟩; exact ⟨rfl, rfl⟩

/-- A StringLike condition whose pattern holds no wildcard admits exactly
the pattern itself. -/
theorem stringLikeMatch_exact {pattern : String} (hp : noWildcards pattern = true) :
    ∀ s : String, stringLikeMatch pattern s = true ↔ s = pattern := by
  have hp' : ∀ c ∈ pattern.data, ¬(c = '*' ∨ c = '?') := by
    intro c hc
    have := (List.all_eq_true.mp hp) c hc
    simp only [Bool.not_eq_true', Bool.or_eq_false_iff, beq_eq_false_iff_ne] at this
    rintro (rfl | rfl)
    · exact this.1 rfl
    · exact this.2 rfl
  intro s
  rw [stringLikeMatch, globMatch_exact hp' s.data]
  constructor
  · intro h; exact String.ext h
  · rintro rfl; rfl

/-- Wildcard-freedom distributes over string concatenation. -/
theorem noWildcards_append (a b : String) :
    noWildcards (a ++ b) = (noWildcards a && noWildcards b) := by
  simp [noWildcards, String.data_append, List.all_append]

/-- The assume requests permitted by a repo role's trust policy are
exactly: the federated OIDC provider principal, the single action
sts:AssumeRoleWithWebIdentity, audience sts.amazonaws.com, and the main
branch of the one configured repository. -/
theorem trustAllows_repoRole (arn org repo : String)
    (horg : noWildcards org = true) (hrepo : noWildcards repo = true) :
    ∀ principalArn action aud sub,
      trustAllows (repoRoleTrust arn org repo) principalArn action aud sub = true ↔
        (principalArn = arn ∧ action = "sts:AssumeRoleWithWebIdentity" ∧
          aud = "sts.amazonaws.com" ∧
          sub = "repo:" ++ org ++ "/" ++ repo ++ ":ref:refs/heads/main") := by
  have hpat : noWildcards ("repo:" ++ org ++ "/" ++ repo ++ ":ref:refs/heads/main") = true := by
    simp only [noWildcards_append, Bool.and_eq_true]
    exact ⟨⟨⟨⟨by decide, horg⟩, by decide⟩, hrepo⟩, by decide⟩
  intro principalArn action aud sub
  rw [trustAllows]
  simp only [Bool.and_eq_true, beq_iff_eq, repoRoleTrust,
    stringLikeMatch_exact hpat sub]
  tauto

/-- C10: every IAM role created by CiCdStack (backend, frontend, infra)
has a trust policy permitting only sts:AssumeRoleWithWebIdentity from
the GitHub OIDC provider, with audience sts.amazonaws.com and subject
restricted to refs/heads/main of exactly one repository of the
configured organization; no other branch, repository or principal is
trusted. -/
theorem cicd_role_trust (arn org br fr ir : String)
    (horg : noWildcards org = true) (hbr : noWildcards br = true)
    (hfr : noWildcards fr = true) (hir : noWildcards ir = true) :
    ∀ roleName repo t, (roleName, repo, t) ∈ cicdRoleTrusts arn org br fr ir →
      t = repoRoleTrust arn org repo ∧
      t.assumeRoleAction = "sts:AssumeRoleWithWebIdentity" ∧
      t.federated = arn ∧
      t.audEquals = "sts.amazonaws.com" ∧
      (repo = br ∨ repo = fr ∨ repo = ir) ∧
      ∀ principalArn action aud sub,
        trustAllows t principalArn action aud sub = true ↔
          (principalArn = arn ∧ action = "sts:AssumeRoleWithWebIdentity" ∧
            aud = "sts.amazonaws.com" ∧
            sub = "repo:" ++ org ++ "/" ++ repo ++ ":ref:refs/heads/main") := by
  intro roleName repo t ht
  simp only [cicdRoleTrusts, List.mem_cons, List.not_mem_nil, or_false,
    Prod.mk.injEq] at ht
  rcases ht with ⟨_, rfl, rfl⟩ | ⟨_, rfl, rfl⟩ | ⟨_, rfl, rfl⟩
  · exact ⟨rfl, rfl, rfl, rfl, Or.inl rfl, trustAllows_repoRole _ _ _ horg hbr⟩
  · exact ⟨rfl, rfl, rfl, rfl, Or.inr (Or.inl rfl), trustAllows_repoRole _ _ _ horg hfr⟩
  · exact ⟨rfl, rfl, rfl, rfl, Or.inr (Or.inr rfl), trustAllows_repoRole _ _ _ horg hir⟩

/-- Witness for C10 at concrete inputs: the backend role of an "acme"
organization admits the main branch of its repository and rejects a
feature branch. -/
theorem cicd_role_trust_witness :
    trustAllows (repoRoleTrust "arn:oidc" "acme" "backend") "arn:oidc"
      "sts:AssumeRoleWithWebIdentity" "sts.amazonaws.com"
      "repo:acme/backend:ref:refs/heads/main" = true ∧
    trustAllows (repoRoleTrust "arn:oidc" "acme" "backend") "arn:oidc"
      "sts:AssumeRoleWithWebIdentity" "sts.amazonaws.com"
      "repo:acme/backend:ref:refs/heads/feature" = false := by
  have H := cicd_role_trust "arn:oidc" "acme" "backend" "frontend" "infra"
    (by decide) (by decide) (by decide) (by decide)
    "BackendDeployRole" "backend" (repoRoleTrust "arn:oidc" "acme" "backend")
    (by simp [cicdRoleTrusts])
  have hiff := H.2.2.2.2.2
  constructor
  · exact (hiff "arn:oidc" "sts:AssumeRoleWithWebIdentity" "sts.amazonaws.com"
      "repo:acme/backend:ref:refs/heads/main").mpr ⟨rfl, rfl, rfl, by decide⟩
  · cases hb : trustAllows (repoRoleTrust "arn:oidc" "acme" "backend") "arn:oidc"
      "sts:AssumeRoleWithWebIdentity" "sts.amazonaws.com"
      "repo:acme/backend:ref:refs/heads/feature" with
    | false => rfl
    | true =>
      have := (hiff "arn:oidc" "sts:AssumeRoleWithWebIdentity" "sts.amazonaws.com"
        "repo:acme/backend:ref:refs/heads/feature").mp hb
      exact absurd this.2.2.2 (by decide)

/-- When the guard of the Kahn loop holds, every stack's name is placed. -/
theorem all_contains_mem {ss : List StackDef} {acc : List String}
    (h : ss.all (fun s => acc.contains s.name) = true) : ∀ s ∈ ss, s.name ∈ acc := by
  intro s hs
  have := List.all_eq_true.mp h s hs
  simpa using this

/-- What readiness means: not yet placed, and every referenced producer
already placed. -/
theorem ready_spec {acc : List String} {s : StackDef} (h : ready acc s = true) :
    s.name ∉ acc ∧ ∀ r ∈ s.requiredInputs, r.stackName ∈ acc := by
  rw [ready, Bool.and_eq_true] at h
  constructor
  · have := h.1
    simpa using this
  · intro r hr
    have := List.all_eq_true.mp h.2 r hr
    simpa using this

/-- The Kahn loop's ok results are topological: producers are placed
strictly earlier, the order has no duplicates, its entries are stack
names, and every stack appears. -/
theorem kahnLoop_ok_inv (ss : List StackDef) (hnodup : (stackNames ss).Nodup) :
    ∀ fuel acc order,
      (∀ s ∈ ss, s.name ∈ acc → ∀ r ∈ s.requiredInputs,
        r.stackName ∈ acc ∧ acc.indexOf r.stackName < acc.indexOf s.name) →
      acc.Nodup → (∀ n ∈ acc, n ∈ stackNames ss) →
      kahnLoop ss fuel acc = .ok order →
      ((∀ s ∈ ss, s.name ∈ order → ∀ r ∈ s.requiredInputs,
          r.stackName ∈ order ∧ order.indexOf r.stackName < order.indexOf s.name) ∧
        order.Nodup ∧ (∀ n ∈ order, n ∈ stackNames ss) ∧ ∀ s ∈ ss, s.name ∈ order) := by
  intro fuel
  induction fuel with
  | zero =>
    intro acc order hinv hnd hsub hok
    rw [kahnLoop] at hok
    by_cases hall : ss.all (fun s => acc.contains s.name) = true
    · rw [if_pos hall] at hok
      obtain rfl : acc = order := by
        exact (Except.ok.injEq _ _).mp hok
      exact ⟨hinv, hnd, hsub, all_contains_mem hall⟩
    · rw [if_neg hall] at hok
      exact absurd hok (by simp)
  | succ fuel ih =>
    intro acc order hinv hnd hsub hok
    rw [kahnLoop] at hok
    by_cases hall : ss.all (fun s => acc.contains s.name) = true
    · rw [if_pos hall] at hok
      obtain rfl : acc = order := (Except.ok.injEq _ _).mp hok
      exact ⟨hinv, hnd, hsub, all_contains_mem hall⟩
    · rw [if_neg hall] at hok
      cases hp : pickNext ss acc with
      | none => rw [hp] at hok; exact absurd hok (by simp)
      | some s =>
        rw [hp] at hok
        have hsmem : s ∈ ss := List.mem_of_find?_eq_some hp
        obtain ⟨hnotin, hprod⟩ := ready_spec (List.find?_some hp)
        refine ih (acc ++ [s.name]) order ?_ ?_ ?_ hok
        · intro s' hs' hmem r hr
          rcases List.mem_append.mp hmem with hin | hsingle
          · obtain ⟨hr1, hr2⟩ := hinv s' hs' hin r hr
            refine ⟨List.mem_append_left _ hr1, ?_⟩
            rw [List.indexOf_append_of_mem hr1, List.indexOf_append_of_mem hin]
            exact hr2
          · have hname : s'.name = s.name := by simpa using hsingle
            obtain rfl : s' = s :=
              List.inj_on_of_nodup_map hnodup hs' hsmem hname
            have hrmem : r.stackName ∈ acc := hprod r hr
            refine ⟨List.mem_append_left _ hrmem, ?_⟩
            rw [List.indexOf_append_of_mem hrmem,
              List.indexOf_append_of_not_mem hnotin]
            have h1 : acc.indexOf r.stackName < acc.length :=
              List.indexOf_lt_length.mpr hrmem
            omega
        · refine List.Nodup.append hnd (List.nodup_singleton _) ?_
          intro a ha hb
          rw [List.mem_singleton] at hb
          subst hb
          exact hnotin ha
        · intro n hn
          rcases List.mem_append.mp hn with h | h
          · exact hsub n h
          · rw [List.mem_singleton] at h
            subst h
            exact List.mem_map_of_mem _ hsmem

/-- A known reference names a declared stack that declares the output. -/
theorem referenceKnown_spec {ss : List StackDef} {r : Reference}
    (h : referenceKnown ss r = true) :
    ∃ p ∈ ss, p.name = r.stackName ∧ declaresOutput p r.outputName = true := by
  rw [referenceKnown] at h
  cases hf : findStack ss r.stackName with
  | none => rw [hf] at h; cases h
  | some p =>
    rw [hf] at h
    exact ⟨p, List.mem_of_find?_eq_some hf, by simpa using List.find?_some hf, h⟩

/-- Every required input yields a dependency edge from its producer. -/
theorem edge_intro {ss : List StackDef} {s : StackDef} (hs : s ∈ ss) {r : Reference}
    (hr : r ∈ s.requiredInputs) : Edge ss r.stackName s.name := by
  unfold Edge edgeList
  rw [List.mem_flatMap]
  exact ⟨s, hs, List.mem_map_of_mem _ hr⟩

/-- On an acyclic, fully referenced stack set the Kahn loop always
terminates with an order: whenever stacks remain, one of them is ready. -/
theorem kahnLoop_progress (ss : List StackDef)
    (href : knownRefsB ss = true) (hnc : ¬HasCycle ss) :
    ∀ fuel acc, acc.Nodup → (∀ n ∈ acc, n ∈ stackNames ss) →
      ss.length ≤ fuel + acc.length →
      ∃ order, kahnLoop ss fuel acc = .ok order := by
  intro fuel
  induction fuel with
  | zero =>
    intro acc hnd hsub hlen
    have hall : ss.all (fun s => acc.contains s.name) = true := by
      have hsubperm : List.Subperm acc (stackNames ss) := hnd.subperm hsub
      have hperm : List.Perm acc (stackNames ss) :=
        hsubperm.perm_of_length_le (by simpa [stackNames] using hlen)
      rw [List.all_eq_true]
      intro s hs
      have hmem : s.name ∈ acc := hperm.mem_iff.mpr (List.mem_map_of_mem _ hs)
      simpa using hmem
    exact ⟨acc, by rw [kahnLoop, if_pos hall]⟩
  | succ fuel ih =>
    intro acc hnd hsub hlen
    by_cases hall : ss.all (fun s => acc.contains s.name) = true
    · exact ⟨acc, by rw [kahnLoop, if_pos hall]⟩
    · cases hp : pickNext ss acc with
      | some s =>
        have hsmem : s ∈ ss := List.mem_of_find?_eq_some hp
        obtain ⟨hnotin, _⟩ := ready_spec (List.find?_some hp)
        obtain ⟨order, h⟩ := ih (acc ++ [s.name])
          (List.Nodup.append hnd (List.nodup_singleton _) (by
            intro a ha hb
            rw [List.mem_singleton] at hb
            subst hb
            exact hnotin ha))
          (by
            intro n hn
            rcases List.mem_append.mp hn with h | h
            · exact hsub n h
            · rw [List.mem_singleton] at h
              subst h
              exact List.mem_map_of_mem _ hsmem)
          (by simp only [List.length_append, List.length_singleton]; omega)
        exact ⟨order, by rw [kahnLoop, if_neg hall, hp]; exact h⟩
      | none =>
        exfalso
        have hstep : ∀ s ∈ ss.filter (fun s => !acc.contains s.name),
            ∃ p ∈ ss.filter (fun s => !acc.contains s.name), Edge ss p.name s.name := by
          intro s hsU
          have hs : s ∈ ss := (List.mem_filter.mp hsU).1
          have hnc2 : (!acc.contains s.name) = true := (List.mem_filter.mp hsU).2
          have hready : ¬ready acc s = true := List.find?_eq_none.mp hp s hs
          have hnall : ¬(s.requiredInputs.all (fun r => acc.contains r.stackName) = true) := by
            intro hcontra
            exact hready (by rw [ready, hnc2, Bool.true_and]; exact hcontra)
          rw [List.all_eq_true] at hnall
          push_neg at hnall
          obtain ⟨r, hr, hrc⟩ := hnall
          have hkn : referenceKnown ss r = true :=
            List.all_eq_true.mp (List.all_eq_true.mp href s hs) r hr
          obtain ⟨p, hpmem, hpname, _⟩ := referenceKnown_spec hkn
          refine ⟨p, ?_, ?_⟩
          · rw [List.mem_filter]
            refine ⟨hpmem, ?_⟩
            rw [hpname]
            simpa using fun hmem => hrc (by simpa using hmem)
          · rw [hpname]
            exact edge_intro hs hr
        obtain ⟨g, hg⟩ : ∃ g : StackDef → StackDef,
            ∀ s ∈ ss.filter (fun s => !acc.contains s.name),
              g s ∈ ss.filter (fun s => !acc.contains s.name) ∧ Edge ss (g s).name s.name := by
          choose f hf1 hf2 using hstep
          refine ⟨fun s => if h : s ∈ ss.filter (fun s => !acc.contains s.name) then f s h else s,
            fun s hs => ?_⟩
          simp only [dif_pos hs]
          exact ⟨hf1 s hs, hf2 s hs⟩
        have hne2 : ¬∀ s ∈ ss, acc.contains s.name = true := by
          rw [← List.all_eq_true]
          exact hall
        push_neg at hne2
        obtain ⟨s₀, hs₀s, hnc₀⟩ := hne2
        have hs₀ : s₀ ∈ ss.filter (fun s => !acc.contains s.name) :=
          List.mem_filter.mpr ⟨hs₀s, by simpa using hnc₀⟩
        have hiter : ∀ k, g^[k] s₀ ∈ ss.filter (fun s => !acc.contains s.name) := by
          intro k
          induction k with
          | zero => simpa using hs₀
          | succ k ihk => rw [Function.iterate_succ_apply']; exact (hg _ ihk).1
        have key : ∀ a b : Nat, a < b → g^[a] s₀ = g^[b] s₀ → False := by
          intro a b hab hEq
          have hyU : g^[a] s₀ ∈ ss.filter (fun s => !acc.contains s.name) := hiter a
          have hfix : g^[b - a] (g^[a] s₀) = g^[a] s₀ := by
            have h2 : g^[(b - a) + a] s₀ = g^[a] s₀ := by
              rw [Nat.sub_add_cancel (Nat.le_of_lt hab)]
              exact hEq.symm
            rwa [Function.iterate_add_apply] at h2
          have hkU : ∀ k, g^[k] (g^[a] s₀) ∈ ss.filter (fun s => !acc.contains s.name) := by
            intro k
            rw [← Function.iterate_add_apply]
            exact hiter (k + a)
          have hchain : ∀ k, 1 ≤ k →
              Relation.TransGen (Edge ss) ((g^[k] (g^[a] s₀)).name) (g^[a] s₀).name := by
            intro k
            induction k with
            | zero => omega
            | succ k ihk =>
              intro _
              rcases Nat.eq_zero_or_pos k with rfl | hk
              · rw [Function.iterate_one]
                exact Relation.TransGen.single (hg _ hyU).2
              · rw [Function.iterate_succ_apply']
                exact Relation.TransGen.head (hg _ (hkU k)).2 (ihk hk)
          have hcyc : Relation.TransGen (Edge ss) (g^[a] s₀).name (g^[a] s₀).name := by
            have := hchain (b - a) (by omega)
            rwa [hfix] at this
          exact hnc ⟨(g^[a] s₀).name, hcyc⟩
        have hcard : ((ss.filter (fun s => !acc.contains s.name)).toFinset).card <
            (Finset.univ : Finset (Fin ((ss.filter (fun s => !acc.contains s.name)).length + 1))).card := by
          rw [Finset.card_univ, Fintype.card_fin]
          exact Nat.lt_succ_of_le (List.toFinset_card_le _)
        obtain ⟨i, _, j, _, hne, heq⟩ :=
          Finset.exists_ne_map_eq_of_card_lt_of_maps_to hcard
            (fun (k : Fin _) _ => List.mem_toFinset.mpr (hiter k.val))
        rcases lt_or_gt_of_ne (fun h : i.val = j.val => hne (Fin.ext h)) with hij | hij
        · exact key i.val j.val hij heq
        · exact key j.val i.val hij heq.symm

/-- Membership in one closure step. -/
theorem mem_stepSucc {edges : List (String × String)} {S : Finset String} {x : String} :
    x ∈ stepSucc edges S ↔ x ∈ S ∨ ∃ e ∈ edges, e.1 ∈ S ∧ e.2 = x := by
  simp [stepSucc, List.mem_filter]

/-- The closure step is inflationary. -/
theorem subset_stepSucc {edges : List (String × String)} {S : Finset String} :
    S ⊆ stepSucc edges S :=
  Finset.subset_union_left

/-- The seed set survives any number of closure steps. -/
theorem subset_iterate {edges : List (String × String)} {S : Finset String} :
    ∀ k, S ⊆ (stepSucc edges)^[k] S := by
  intro k
  induction k with
  | zero => simp
  | succ k ih =>
    rw [Function.iterate_succ_apply']
    exact ih.trans subset_stepSucc

/-- Closure steps stay inside any universe containing the seed and every
edge consumer. -/
theorem iterate_subset_univ {edges : List (String × String)} {S U : Finset String}
    (hS : S ⊆ U) (hE : ∀ e ∈ edges, e.2 ∈ U) :
    ∀ k, (stepSucc edges)^[k] S ⊆ U := by
  intro k
  induction k with
  | zero => simpa using hS
  | succ k ih =>
    rw [Function.iterate_succ_apply']
    intro x hx
    rcases mem_stepSucc.mp hx with h | ⟨e, he, _, rfl⟩
    · exact ih h
    · exact hE e he

/-- Once the closure step fixes an iterate, all later iterates agree. -/
theorem iterate_stable {edges : List (String × String)} {S : Finset String} {k : Nat}
    (h : stepSucc edges ((stepSucc edges)^[k] S) = (stepSucc edges)^[k] S) :
    ∀ m, (stepSucc edges)^[k + m] S = (stepSucc edges)^[k] S := by
  intro m
  induction m with
  | zero => rfl
  | succ m ih =>
    rw [← Nat.add_assoc, Function.iterate_succ_apply', ih, h]

/-- After as many steps as the universe has elements, the closure step has
reached a fixpoint. -/
theorem iterate_fixpoint_ge {edges : List (String × String)} {S U : Finset String}
    (hS : S ⊆ U) (hE : ∀ e ∈ edges, e.2 ∈ U) :
    ∀ m, U.card ≤ m →
      stepSucc edges ((stepSucc edges)^[m] S) = (stepSucc edges)^[m] S := by
  have hfix : ∃ k, k ≤ U.card ∧
      stepSucc edges ((stepSucc edges)^[k] S) = (stepSucc edges)^[k] S := by
    by_contra hno
    push_neg at hno
    have hgrow : ∀ k, k ≤ U.card + 1 → S.card + k ≤ ((stepSucc edges)^[k] S).card := by
      intro k
      induction k with
      | zero => simp
      | succ k ih =>
        intro hk
        have hne : stepSucc edges ((stepSucc edges)^[k] S) ≠ (stepSucc edges)^[k] S :=
          hno k (by omega)
        have hss : (stepSucc edges)^[k] S ⊂ stepSucc edges ((stepSucc edges)^[k] S) :=
          (Finset.ssubset_iff_subset_ne.mpr ⟨subset_stepSucc, fun h => hne h.symm⟩)
        have hlt : ((stepSucc edges)^[k] S).card <
            (stepSucc edges ((stepSucc edges)^[k] S)).card :=
          Finset.card_lt_card hss
        have hik := ih (by omega)
        rw [Function.iterate_succ_apply']
        omega
    have h1 := hgrow (U.card + 1) (le_refl _)
    have h2 : ((stepSucc edges)^[U.card + 1] S).card ≤ U.card :=
      Finset.card_le_card (iterate_subset_univ hS hE (U.card + 1))
    omega
  obtain ⟨k, hk, hfixk⟩ := hfix
  intro m hm
  have h1 : (stepSucc edges)^[m] S = (stepSucc edges)^[k] S := by
    have := iterate_stable hfixk (m - k)
    rwa [Nat.add_sub_cancel' (hk.trans hm)] at this
  rw [h1]
  exact hfixk

/-- Direct-successor membership is edge membership. -/
theorem mem_succOf {edges : List (String × String)} {v w : String} :
    w ∈ succOf edges v ↔ (v, w) ∈ edges := by
  simp only [succOf, List.mem_toFinset, List.mem_map, List.mem_filter, beq_iff_eq]
  constructor
  · rintro ⟨e, ⟨he, rfl⟩, rfl⟩
    exact he
  · intro h
    exact ⟨(v, w), ⟨h, rfl⟩, rfl⟩

/-- Everything in the closure of a node's successors is transitively
reachable from that node. -/
theorem iterate_sound {edges : List (String × String)} {v : String} :
    ∀ (k : Nat) (S : Finset String),
      (∀ w ∈ S, Relation.TransGen (fun b a => (b, a) ∈ edges) v w) →
      ∀ w ∈ (stepSucc edges)^[k] S, Relation.TransGen (fun b a => (b, a) ∈ edges) v w := by
  intro k
  induction k with
  | zero => intro S hS; simpa using hS
  | succ k ih =>
    intro S hS w hw
    rw [Function.iterate_succ_apply'] at hw
    rcases mem_stepSucc.mp hw with h | ⟨e, he, he1, rfl⟩
    · exact ih S hS w h
    · exact Relation.TransGen.tail (ih S hS e.1 he1) he

/-- Every consumer endpoint of an edge is a declared stack name. -/
theorem edgeList_snd_mem_names {ss : List StackDef} :
    ∀ e ∈ edgeList ss, e.2 ∈ (stackNames ss).toFinset := by
  intro e he
  rw [edgeList, List.mem_flatMap] at he
  obtain ⟨s, hs, he⟩ := he
  rw [List.mem_map] at he
  obtain ⟨r, _, rfl⟩ := he
  exact List.mem_toFinset.mpr (List.mem_map_of_mem _ hs)

/-- A node's direct successors are declared stack names. -/
theorem succOf_subset_names {ss : List StackDef} {v : String} :
    succOf (edgeList ss) v ⊆ (stackNames ss).toFinset := by
  intro w hw
  exact edgeList_snd_mem_names _ (mem_succOf.mp hw)

/-- Soundness of the cycle test: a flagged stack really sits on a cycle. -/
theorem onCycle_sound {ss : List StackDef} {v : String} (h : onCycle ss v = true) :
    Relation.TransGen (Edge ss) v v := by
  rw [onCycle, decide_eq_true_eq] at h
  have := iterate_sound ((stackNames ss).length + 1) (succOf (edgeList ss) v)
    (fun w hw => Relation.TransGen.single (mem_succOf.mp hw)) v h
  exact this

/-- Completeness of the cycle test: a stack on a cycle is flagged. -/
theorem onCycle_complete {ss : List StackDef} {v : String}
    (h : Relation.TransGen (Edge ss) v v) : onCycle ss v = true := by
  rw [onCycle, decide_eq_true_eq]
  have hfix : stepSucc (edgeList ss)
      ((stepSucc (edgeList ss))^[(stackNames ss).length + 1] (succOf (edgeList ss) v)) =
      (stepSucc (edgeList ss))^[(stackNames ss).length + 1] (succOf (edgeList ss) v) :=
    iterate_fixpoint_ge succOf_subset_names edgeList_snd_mem_names _
      (Nat.le_succ_of_le (List.toFinset_card_le _))
  have hclosed : ∀ b a, (b, a) ∈ edgeList ss →
      b ∈ (stepSucc (edgeList ss))^[(stackNames ss).length + 1] (succOf (edgeList ss) v) →
      a ∈ (stepSucc (edgeList ss))^[(stackNames ss).length + 1] (succOf (edgeList ss) v) := by
    intro b a he hb
    have : a ∈ stepSucc (edgeList ss)
        ((stepSucc (edgeList ss))^[(stackNames ss).length + 1] (succOf (edgeList ss) v)) :=
      mem_stepSucc.mpr (Or.inr ⟨(b, a), he, hb, rfl⟩)
    rwa [hfix] at this
  have hmem : ∀ w, Relation.TransGen (Edge ss) v w →
      w ∈ (stepSucc (edgeList ss))^[(stackNames ss).length + 1] (succOf (edgeList ss) v) := by
    intro w hw
    induction hw with
    | single h1 => exact subset_iterate _ (mem_succOf.mpr h1)
    | tail _ h2 ih => exact hclosed _ _ h2 ih
  exact hmem v h

/-- Decomposition of a dependency edge. -/
theorem edge_elim {ss : List StackDef} {b a : String} (h : Edge ss b a) :
    ∃ s ∈ ss, s.name = a ∧ ∃ r ∈ s.requiredInputs, r.stackName = b := by
  rw [Edge, edgeList, List.mem_flatMap] at h
  obtain ⟨s, hs, hmem⟩ := h
  rw [List.mem_map] at hmem
  obtain ⟨r, hr, heq⟩ := hmem
  obtain ⟨h1, h2⟩ := Prod.mk.injEq _ _ _ _ ▸ heq
  exact ⟨s, hs, by rw [← h2], r, hr, by rw [← h1]⟩

/-- The endpoint of any dependency path is a declared stack name. -/
theorem transGen_end_mem_names {ss : List StackDef} {u v : String}
    (h : Relation.TransGen (Edge ss) u v) : v ∈ stackNames ss := by
  induction h with
  | single h1 =>
    obtain ⟨s, hs, rfl, _⟩ := edge_elim h1
    exact List.mem_map_of_mem _ hs
  | tail _ h2 _ =>
    obtain ⟨s, hs, rfl, _⟩ := edge_elim h2
    exact List.mem_map_of_mem _ hs

/-- The computed cycle members are exactly the stacks that sit on a
reference cycle. -/
theorem cycleMembers_iff (ss : List StackDef) :
    ∀ v, v ∈ cycleMembers ss ↔ Relation.TransGen (Edge ss) v v := by
  intro v
  rw [cycleMembers, List.mem_filter]
  constructor
  · rintro ⟨_, hc⟩
    exact onCycle_sound hc
  · intro h
    exact ⟨transGen_end_mem_names h, onCycle_complete h⟩

/-- An empty computed cycle-member list certifies acyclicity. -/
theorem noCycle_of_cycleMembers_nil {ss : List StackDef}
    (h : cycleMembers ss = []) : ¬HasCycle ss := by
  rintro ⟨v, hv⟩
  have : v ∈ cycleMembers ss := (cycleMembers_iff ss v).mpr hv
  rw [h] at this
  exact List.not_mem_nil v this

/-- A fully referenced stack set has no unknown references. -/
theorem unknownReferences_nil_of_known {ss : List StackDef}
    (href : knownRefsB ss = true) : unknownReferences ss = [] := by
  rw [unknownReferences, List.flatMap_eq_nil_iff]
  intro s hs
  rw [List.map_eq_nil_iff, List.filter_eq_nil_iff]
  intro r hr
  have := List.all_eq_true.mp (List.all_eq_true.mp href s hs) r hr
  simp [this]

/-- Every error of the Kahn loop is the cycle error naming the computed
cycle members. -/
theorem kahnLoop_error_shape (ss : List StackDef) :
    ∀ fuel acc e, kahnLoop ss fuel acc = .error e →
      e = .cycleError (cycleMembers ss) := by
  intro fuel
  induction fuel with
  | zero =>
    intro acc e h
    rw [kahnLoop] at h
    by_cases hall : ss.all (fun s => acc.contains s.name) = true
    · rw [if_pos hall] at h; exact absurd h (by simp)
    · rw [if_neg hall] at h
      exact ((Except.error.injEq _ _).mp h).symm
  | succ fuel ih =>
    intro acc e h
    rw [kahnLoop] at h
    by_cases hall : ss.all (fun s => acc.contains s.name) = true
    · rw [if_pos hall] at h; exact absurd h (by simp)
    · rw [if_neg hall] at h
      cases hp : pickNext ss acc with
      | some s => rw [hp] at h; exact ih _ e h
      | none => rw [hp] at h; exact ((Except.error.injEq _ _).mp h).symm

/-- buildGraph reduces to the Kahn loop when every reference is known. -/
theorem buildGraph_eq_kahn {ss : List StackDef} (h : unknownReferences ss = []) :
    buildGraph ss = kahnLoop ss ss.length [] := by
  rw [buildGraph.eq_def, h]

/-- buildGraph stops with the first unknown reference. -/
theorem buildGraph_eq_error {ss : List StackDef} {sn : String} {r : Reference}
    {tl : List (String × Reference)} (h : unknownReferences ss = (sn, r) :: tl) :
    buildGraph ss = .error (.unknownReference sn r) := by
  rw [buildGraph.eq_def, h]

/-- deploy propagates build-time graph errors without starting a run. -/
theorem deploy_eq_error {ss : List StackDef} {inject : String → Option String}
    {live₀ : Live} {e : GraphError} (h : buildGraph ss = .error e) :
    deploy ss inject live₀ = .error e := by
  rw [deploy.eq_def, h]

/-- deploy drives the orchestrator loop over the computed order. -/
theorem deploy_eq_ok {ss : List StackDef} {inject : String → Option String}
    {live₀ : Live} {order : List String} (h : buildGraph ss = .ok order) :
    deploy ss inject live₀ = .ok (deployLoop ss inject order (initState live₀)) := by
  rw [deploy.eq_def, h]

/-- A topological order puts every edge's producer strictly before its
consumer. -/
theorem topo_edge_lt {ss : List StackDef} {order : List String}
    (h : placesAfterProducers ss order) {b a : String} (he : Edge ss b a) :
    order.indexOf b < order.indexOf a := by
  obtain ⟨s, hs, rfl, r, hr, rfl⟩ := edge_elim he
  exact ((h s hs).2 r hr).2

/-- A stack set admitting a topological order has no reference cycle. -/
theorem topo_no_cycle {ss : List StackDef} {order : List String}
    (h : placesAfterProducers ss order) : ¬HasCycle ss := by
  rintro ⟨v, hv⟩
  have hmono : ∀ w, Relation.TransGen (Edge ss) v w →
      order.indexOf v < order.indexOf w := by
    intro w hw
    induction hw with
    | single h1 => exact topo_edge_lt h h1
    | tail _ h2 ih => exact lt_trans ih (topo_edge_lt h h2)
  exact lt_irrefl _ (hmono v hv)

/-- Every order buildGraph returns is topological: each stack is placed
after every stack whose outputs it references. -/
theorem buildGraph_places {ss : List StackDef} {order : List String}
    (hnodup : (stackNames ss).Nodup) (hok : buildGraph ss = .ok order) :
    placesAfterProducers ss order := by
  cases hu : unknownReferences ss with
  | cons hd tl =>
    obtain ⟨sn, r⟩ := hd
    rw [buildGraph_eq_error hu] at hok
    exact absurd hok (by simp)
  | nil =>
    rw [buildGraph_eq_kahn hu] at hok
    obtain ⟨hinv, _, _, hall⟩ := kahnLoop_ok_inv ss hnodup ss.length [] order
      (by simp) (by simp) (by simp) hok
    intro s hs
    exact ⟨hall s hs, fun r hr => hinv s hs (hall s hs) r hr⟩

/-- C2: buildGraph on a fully referenced acyclic set returns an order, and
every order it returns is topological — each stack is placed after every
stack whose outputs it references. -/
theorem buildGraph_topological (ss : List StackDef) (hnodup : (stackNames ss).Nodup) :
    (knownRefsB ss = true → ¬HasCycle ss → ∃ order, buildGraph ss = .ok order) ∧
    ∀ order, buildGraph ss = .ok order → placesAfterProducers ss order := by
  constructor
  · intro href hnc
    obtain ⟨order, h⟩ := kahnLoop_progress ss href hnc ss.length []
      (by simp) (by simp) (by simp)
    exact ⟨order, by rw [buildGraph_eq_kahn (unknownReferences_nil_of_known href)]; exact h⟩
  · intro order hok
    exact buildGraph_places hnodup hok

/-- Witness for C2 at the concrete stack set of src/app.py. -/
theorem buildGraph_topological_witness :
    (∃ order, buildGraph scenarioStacks = .ok order) ∧
    placesAfterProducers scenarioStacks ["Dns", "CiCd", "App", "Monitoring"] := by
  have H := buildGraph_topological scenarioStacks (by decide)
  exact ⟨H.1 (by decide) (noCycle_of_cycleMembers_nil (by decide)), H.2 _ rfl⟩

/-- C3: a stack set with a reference cycle never yields a deployment
order — buildGraph fails, and (when all references are known, so the
earlier UnknownReference check passes) it fails precisely with CycleError
naming exactly the stacks that sit on cycles. -/
theorem buildGraph_cycle_detection (ss : List StackDef)
    (hnodup : (stackNames ss).Nodup) (hcyc : HasCycle ss) :
    (∀ order, buildGraph ss ≠ .ok order) ∧
    (knownRefsB ss = true →
      buildGraph ss = .error (.cycleError (cycleMembers ss)) ∧
      cycleMembers ss ≠ [] ∧
      ∀ v, v ∈ cycleMembers ss ↔ Relation.TransGen (Edge ss) v v) := by
  have hnotok : ∀ order, buildGraph ss ≠ .ok order := by
    intro order hok
    exact topo_no_cycle (buildGraph_places hnodup hok) hcyc
  refine ⟨hnotok, fun href => ⟨?_, ?_, cycleMembers_iff ss⟩⟩
  · cases hb : buildGraph ss with
    | ok order => exact absurd hb (hnotok order)
    | error e =>
      rw [buildGraph_eq_kahn (unknownReferences_nil_of_known href)] at hb
      have he : e = .cycleError (cycleMembers ss) := kahnLoop_error_shape ss _ _ e hb
      rw [he]
  · obtain ⟨v, hv⟩ := hcyc
    have hmem : v ∈ cycleMembers ss := (cycleMembers_iff ss v).mpr hv
    intro hnil
    rw [hnil] at hmem
    exact List.not_mem_nil v hmem

/-- Witness for C3 at a concrete two-stack cycle. -/
theorem buildGraph_cycle_detection_witness :
    (∀ order, buildGraph cyclicStacks ≠ .ok order) ∧
    buildGraph cyclicStacks = .error (.cycleError (cycleMembers cyclicStacks)) ∧
    cycleMembers cyclicStacks = ["A", "B"] := by
  have H := buildGraph_cycle_detection cyclicStacks (by decide)
    ⟨"A", Relation.TransGen.head (b := "B") (by decide) (Relation.TransGen.single (by decide))⟩
  exact ⟨H.1, (H.2 (by decide)).1, by decide⟩

/-- Membership in the unknown-reference list. -/
theorem mem_unknownReferences {ss : List StackDef} {sn : String} {r : Reference} :
    (sn, r) ∈ unknownReferences ss ↔
      ∃ s ∈ ss, s.name = sn ∧ r ∈ s.requiredInputs ∧ referenceKnown ss r = false := by
  simp only [unknownReferences, List.mem_flatMap, List.mem_map, List.mem_filter]
  constructor
  · rintro ⟨s, hs, r', ⟨hr', hknown⟩, heq⟩
    obtain ⟨h1, h2⟩ := Prod.mk.injEq _ _ _ _ ▸ heq
    subst h1
    subst h2
    exact ⟨s, hs, rfl, hr', by simpa using hknown⟩
  · rintro ⟨s, hs, rfl, hr, hknown⟩
    exact ⟨s, hs, r, ⟨hr, by simp [hknown]⟩, rfl⟩

/-- C4: a reference to an undeclared stack or output makes buildGraph fail
at build time with UnknownReference naming an offending stack and
reference, before any reconciliation (deploy returns no run state); and
resolution never invents values — every resolved value is a store entry,
and a required reference absent from the store makes resolve fail. -/
theorem unknown_reference_and_no_defaults (ss : List StackDef) :
    ((∃ s ∈ ss, ∃ r ∈ s.requiredInputs, referenceKnown ss r = false) →
      ∃ sn r, buildGraph ss = .error (.unknownReference sn r) ∧
        (∃ s ∈ ss, s.name = sn ∧ r ∈ s.requiredInputs ∧ referenceKnown ss r = false) ∧
        ∀ inject live₀ st, deploy ss inject live₀ ≠ .ok st) ∧
    (∀ inputs store res, resolve inputs store = .ok res →
      ∀ r v, (r, v) ∈ res → storeFind store r = some v) ∧
    (∀ inputs store r, r ∈ inputs → storeFind store r = none →
      ∀ res, resolve inputs store ≠ .ok res) := by
  refine ⟨?_, ?_, ?_⟩
  · rintro ⟨s, hs, r0, hr0, hbad⟩
    cases hu : unknownReferences ss with
    | nil =>
      exfalso
      have : (s.name, r0) ∈ unknownReferences ss :=
        mem_unknownReferences.mpr ⟨s, hs, rfl, hr0, hbad⟩
      rw [hu] at this
      exact List.not_mem_nil _ this
    | cons hd tl =>
      obtain ⟨sn, r⟩ := hd
      have hb : buildGraph ss = .error (.unknownReference sn r) := buildGraph_eq_error hu
      refine ⟨sn, r, hb, mem_unknownReferences.mp (hu ▸ List.mem_cons_self _ _), ?_⟩
      intro inject live₀ st h
      rw [deploy_eq_error hb] at h
      exact absurd h (by simp)
  · intro inputs
    induction inputs with
    | nil =>
      intro store res h r v hmem
      rw [resolve] at h
      obtain rfl : ([] : List (Reference × String)) = res := (Except.ok.injEq _ _).mp h
      exact absurd hmem (List.not_mem_nil _)
    | cons r0 rest ih =>
      intro store res h r v hmem
      rw [resolve] at h
      cases hf : storeFind store r0 with
      | none => rw [hf] at h; exact absurd h (by simp)
      | some v0 =>
        rw [hf] at h
        cases hres : resolve rest store with
        | error e => rw [hres] at h; exact absurd h (by simp)
        | ok tl =>
          rw [hres] at h
          obtain rfl : (r0, v0) :: tl = res := (Except.ok.injEq _ _).mp h
          rcases List.mem_cons.mp hmem with heq | htl
          · obtain ⟨h1, h2⟩ := Prod.mk.injEq _ _ _ _ ▸ heq
            subst h1
            subst h2
            exact hf
          · exact ih store tl hres r v htl
  · intro inputs
    induction inputs with
    | nil =>
      intro store r hmem _
      exact absurd hmem (List.not_mem_nil _)
    | cons r0 rest ih =>
      intro store r hmem hnone res h
      rw [resolve] at h
      rcases List.mem_cons.mp hmem with rfl | htl
      · rw [hnone] at h
        exact absurd h (by simp)
      · cases hf : storeFind store r0 with
        | none => rw [hf] at h; exact absurd h (by simp)
        | some v0 =>
          rw [hf] at h
          cases hres : resolve rest store with
          | error e => rw [hres] at h; exact absurd h (by simp)
          | ok tl => exact ih store r htl hnone tl hres

/-- Witness for C4 at a concrete dangling reference. -/
theorem unknown_reference_witness :
    (∃ sn r, buildGraph badRefStacks = .error (.unknownReference sn r) ∧
      (∃ s ∈ badRefStacks, s.name = sn ∧ r ∈ s.requiredInputs ∧
        referenceKnown badRefStacks r = false) ∧
      ∀ inject live₀ st, deploy badRefStacks inject live₀ ≠ .ok st) ∧
    (∀ res, resolve [⟨"Ghost", "g"⟩] [] ≠ .ok res) := by
  have H := unknown_reference_and_no_defaults badRefStacks
  exact ⟨H.1 (by decide),
    H.2.2 [⟨"Ghost", "g"⟩] [] ⟨"Ghost", "g"⟩ (by decide) (by decide)⟩

/-- A halted pipeline only skips. -/
theorem deployStep_of_halted {ss : List StackDef} {inject : String → Option String}
    {st : RunState} {name : String} (h : st.halted = true) :
    deployStep ss inject st name = { st with report := st.report ++ [skippedEntry name] } := by
  unfold deployStep
  rw [if_pos h]

/-- A name naming no stack fails the run. -/
theorem deployStep_of_none {ss : List StackDef} {inject : String → Option String}
    {st : RunState} {name : String} (h : st.halted = false)
    (hf : findStack ss name = none) :
    deployStep ss inject st name =
      { st with report := st.report ++ [⟨name, .failed, [], [], [], [], some .unknownStack⟩],
                halted := true } := by
  unfold deployStep
  rw [if_neg (by simp [h]), hf]

/-- A failed input resolution fails the stack and halts. -/
theorem deployStep_of_unresolved {ss : List StackDef} {inject : String → Option String}
    {st : RunState} {name : String} {s : StackDef} {r : Reference} (h : st.halted = false)
    (hf : findStack ss name = some s) (hr : resolve s.requiredInputs st.store = .error r) :
    deployStep ss inject st name =
      { st with
          report := st.report ++
            [⟨name, .failed, [], [], [], [], some (.unresolvedReference r)⟩],
          halted := true } := by
  unfold deployStep
  rw [if_neg (by simp [h]), hf]
  simp only [hr]

/-- A failed reconciliation fails the stack and halts. -/
theorem deployStep_of_reconcile_error {ss : List StackDef} {inject : String → Option String}
    {st : RunState} {name : String} {s : StackDef} {resolved : List (Reference × String)}
    {e : ReconcileFailure} (h : st.halted = false)
    (hf : findStack ss name = some s) (hr : resolve s.requiredInputs st.store = .ok resolved)
    (hc : reconcileStack inject s resolved st.live = .error e) :
    deployStep ss inject st name =
      { st with
          report := st.report ++ [⟨name, .failed, [], [], [], resolved, some (.reconcile e)⟩],
          halted := true } := by
  unfold deployStep
  rw [if_neg (by simp [h]), hf]
  simp only [hr, hc]

/-- A successful reconciliation records outputs and marks Succeeded. -/
theorem deployStep_of_ok {ss : List StackDef} {inject : String → Option String}
    {st : RunState} {name : String} {s : StackDef} {resolved : List (Reference × String)}
    {res : ReconcileResult} (h : st.halted = false)
    (hf : findStack ss name = some s) (hr : resolve s.requiredInputs st.store = .ok resolved)
    (hc : reconcileStack inject s resolved st.live = .ok res) :
    deployStep ss inject st name =
      ⟨res.newLive, st.store ++ res.outputs.map (fun o => ((s.name, o.1), o.2)),
        st.report ++
          [⟨name, .succeeded, res.created, res.updated, res.unchangedIds, resolved, none⟩],
        false⟩ := by
  unfold deployStep
  rw [if_neg (by simp [h]), hf]
  simp only [hr, hc]

/-- The loop over an empty order is the identity. -/
theorem deployLoop_nil {ss : List StackDef} {inject : String → Option String}
    {st : RunState} : deployLoop ss inject [] st = st := rfl

/-- The loop peels one stack at a time. -/
theorem deployLoop_cons {ss : List StackDef} {inject : String → Option String}
    {st : RunState} {n : String} {order : List String} :
    deployLoop ss inject (n :: order) st =
      deployLoop ss inject order (deployStep ss inject st n) := rfl

/-- The loop splits over appended order segments. -/
theorem deployLoop_append {ss : List StackDef} {inject : String → Option String}
    {st : RunState} {done todo : List String} :
    deployLoop ss inject (done ++ todo) st =
      deployLoop ss inject todo (deployLoop ss inject done st) := by
  rw [deployLoop, deployLoop, deployLoop, List.foldl_append]

/-- Once halted, the rest of the order is skipped verbatim: live state,
store and the halt flag never change again. -/
theorem deployLoop_halted {ss : List StackDef} {inject : String → Option String} :
    ∀ (order : List String) (st : RunState), st.halted = true →
      deployLoop ss inject order st =
        ⟨st.live, st.store, st.report ++ order.map skippedEntry, true⟩ := by
  intro order
  induction order with
  | nil =>
    intro st h
    cases st
    simp_all [deployLoop_nil]
  | cons n order ih =>
    intro st h
    rw [deployLoop_cons, deployStep_of_halted h, ih _ (by simp [h])]
    simp

/-- Each processed stack contributes exactly one report entry, in order. -/
theorem deployStep_report {ss : List StackDef} {inject : String → Option String}
    {st : RunState} {name : String} :
    ∃ entry : ReportEntry, entry.stackName = name ∧
      (deployStep ss inject st name).report = st.report ++ [entry] := by
  by_cases h : st.halted = true
  · exact ⟨skippedEntry name, rfl, by rw [deployStep_of_halted h]⟩
  · rw [Bool.not_eq_true] at h
    cases hf : findStack ss name with
    | none => exact ⟨_, rfl, by rw [deployStep_of_none h hf]⟩
    | some s =>
      cases hr : resolve s.requiredInputs st.store with
      | error r => exact ⟨_, rfl, by rw [deployStep_of_unresolved h hf hr]⟩
      | ok resolved =>
        cases hc : reconcileStack inject s resolved st.live with
        | error e => exact ⟨_, rfl, by rw [deployStep_of_reconcile_error h hf hr hc]⟩
        | ok res => exact ⟨_, rfl, by rw [deployStep_of_ok h hf hr hc]⟩

/-- The report names of a run are exactly the processed order. -/
theorem deployLoop_report_names {ss : List StackDef} {inject : String → Option String} :
    ∀ (order : List String) (st : RunState),
      (deployLoop ss inject order st).report.map (fun e => e.stackName) =
        st.report.map (fun e => e.stackName) ++ order := by
  intro order
  induction order with
  | nil => intro st; simp [deployLoop_nil]
  | cons n order ih =>
    intro st
    rw [deployLoop_cons, ih]
    obtain ⟨entry, hname, hrep⟩ :=
      @deployStep_report ss inject st n
    rw [hrep]
    simp [hname]

/-- Each step only appends to the Output Store. -/
theorem deployStep_store_extends {ss : List StackDef} {inject : String → Option String}
    {st : RunState} {name : String} :
    ∃ extra, (deployStep ss inject st name).store = st.store ++ extra := by
  by_cases h : st.halted = true
  · exact ⟨[], by rw [deployStep_of_halted h]; simp⟩
  · rw [Bool.not_eq_true] at h
    cases hf : findStack ss name with
    | none => exact ⟨[], by rw [deployStep_of_none h hf]; simp⟩
    | some s =>
      cases hr : resolve s.requiredInputs st.store with
      | error r => exact ⟨[], by rw [deployStep_of_unresolved h hf hr]; simp⟩
      | ok resolved =>
        cases hc : reconcileStack inject s resolved st.live with
        | error e => exact ⟨[], by rw [deployStep_of_reconcile_error h hf hr hc]; simp⟩
        | ok res => exact ⟨_, by rw [deployStep_of_ok h hf hr hc]⟩

/-- C7's monotonicity: a run only ever appends to the Output Store. -/
theorem deployLoop_store_extends {ss : List StackDef} {inject : String → Option String} :
    ∀ (order : List String) (st : RunState),
      ∃ extra, (deployLoop ss inject order st).store = st.store ++ extra := by
  intro order
  induction order with
  | nil => intro st; exact ⟨[], by simp [deployLoop_nil]⟩
  | cons n order ih =>
    intro st
    obtain ⟨e1, h1⟩ :=
      @deployStep_store_extends ss inject st n
    obtain ⟨e2, h2⟩ := ih (deployStep ss inject st n)
    exact ⟨e1 ++ e2, by rw [deployLoop_cons, h2, h1, List.append_assoc]⟩

/-- A present store binding survives appends (the store is append-only,
lookups return the first — original — binding). -/
theorem keyFind_append_of_isSome {β : Type} {l l' : List ((String × String) × β)}
    {k : String × String} {v : β} (h : keyFind l k = some v) :
    keyFind (l ++ l') k = some v := by
  rw [keyFind] at h
  cases hf : l.find? (fun p => p.1.1 == k.1 && p.1.2 == k.2) with
  | none => rw [hf] at h; exact absurd h (by simp)
  | some p =>
    rw [hf] at h
    simp only [Option.map_some'] at h
    rw [keyFind, List.find?_append, hf]
    simp [h]

/-- An absent binding defers the lookup to the appended segment. -/
theorem keyFind_append_of_none {β : Type} {l l' : List ((String × String) × β)}
    {k : String × String} (h : keyFind l k = none) :
    keyFind (l ++ l') k = keyFind l' k := by
  rw [keyFind] at h
  cases hf : l.find? (fun p => p.1.1 == k.1 && p.1.2 == k.2) with
  | some p => rw [hf] at h; exact absurd h (by simp)
  | none => rw [keyFind, keyFind, List.find?_append, hf]; simp

/-- Reading outputs yields exactly the declared output names, in order. -/
theorem readOutputs_names {sn : String} {live : Live} :
    ∀ (outs : List (String × String × String)) (l : List (String × String)),
      readOutputs sn live outs = .ok l →
      l.map (fun o => o.1) = outs.map (fun o => o.1) := by
  intro outs
  induction outs with
  | nil =>
    intro l h
    rw [readOutputs] at h
    obtain rfl : ([] : List (String × String)) = l := (Except.ok.injEq _ _).mp h
    rfl
  | cons o rest ih =>
    intro l h
    obtain ⟨oname, rid, attr⟩ := o
    rw [readOutputs] at h
    cases h1 : keyFind live (sn, rid) with
    | none => rw [h1] at h; exact absurd h (by simp)
    | some attrs =>
      simp only [h1] at h
      cases h2 : strLookup attrs attr with
      | none => simp only [h2] at h; exact absurd h (by simp)
      | some v =>
        simp only [h2] at h
        cases h3 : readOutputs sn live rest with
        | error e => simp only [h3] at h; exact absurd h (by simp)
        | ok tl =>
          simp only [h3] at h
          obtain rfl : (oname, v) :: tl = l := (Except.ok.injEq _ _).mp h
          simp [ih tl h3]

/-- A successful reconciliation produces one output value per declared
output name. -/
theorem reconcileStack_ok_outputs {inject : String → Option String} {s : StackDef}
    {resolved : List (Reference × String)} {live : Live} {res : ReconcileResult}
    (h : reconcileStack inject s resolved live = .ok res) :
    res.outputs.map (fun o => o.1) = s.producedOutputs.map (fun o => o.1) := by
  rw [reconcileStack] at h
  cases hinj : inject s.name with
  | some msg => rw [hinj] at h; exact absurd h (by simp)
  | none =>
    simp only [hinj] at h
    cases happ : applyResources s.name resolved s.resources live with
    | error e => simp only [happ] at h; exact absurd h (by simp)
    | ok quad =>
      obtain ⟨cr, up, un, live'⟩ := quad
      simp only [happ] at h
      cases hread : readOutputs s.name live' s.producedOutputs with
      | error e => simp only [hread] at h; exact absurd h (by simp)
      | ok outs =>
        simp only [hread] at h
        have : ReconcileResult.mk cr up un outs live' = res := (Except.ok.injEq _ _).mp h
        rw [← this]
        exact readOutputs_names s.producedOutputs outs hread

/-- A recorded output entry is findable among the appended records. -/
theorem keyFind_outputs_mem {sn : String} {oname : String} :
    ∀ outs : List (String × String), oname ∈ outs.map Prod.fst →
      ∃ v, keyFind (outs.map (fun o => ((sn, o.1), o.2))) (sn, oname) = some v := by
  intro outs
  induction outs with
  | nil => intro h; exact absurd h (by simp)
  | cons o rest ih =>
    intro h
    rw [List.map_cons]
    by_cases heq : o.1 = oname
    · refine ⟨o.2, ?_⟩
      rw [keyFind, List.find?_cons_of_pos _ (by simp [heq])]
      rfl
    · have hrest : oname ∈ rest.map Prod.fst := by
        obtain ⟨x, hx, hxe⟩ := List.mem_map.mp h
        rcases List.mem_cons.mp hx with rfl | hx'
        · exact absurd hxe heq
        · exact List.mem_map.mpr ⟨x, hx', hxe⟩
      obtain ⟨v, hv⟩ := ih hrest
      refine ⟨v, ?_⟩
      rw [keyFind, List.find?_cons_of_neg _ (by simp [heq])]
      rw [keyFind] at hv
      exact hv

/-- Unfolding of the report shape at a halted flag. -/
theorem reportShape_true {report : List ReportEntry} :
    reportShape report true ↔
      ∃ pre f post, report = pre ++ f :: post ∧
        (∀ e ∈ pre, e.status = .succeeded) ∧ f.status = .failed ∧
        ∀ e ∈ post, ∃ n, e = skippedEntry n := Iff.rfl

/-- Unfolding of the report shape at a running flag. -/
theorem reportShape_false {report : List ReportEntry} :
    reportShape report false ↔ ∀ e ∈ report, e.status = .succeeded := Iff.rfl

/-- A stack named by findStack is a declared stack of that name. -/
theorem findStack_spec {ss : List StackDef} {name : String} {s : StackDef}
    (h : findStack ss name = some s) : s ∈ ss ∧ s.name = name :=
  ⟨List.mem_of_find?_eq_some h, by simpa using List.find?_some h⟩

/-- One orchestrator step preserves the report shape. -/
theorem reportShape_step {ss : List StackDef} {inject : String → Option String}
    {st : RunState} {name : String} (h : reportShape st.report st.halted) :
    reportShape (deployStep ss inject st name).report
      (deployStep ss inject st name).halted := by
  by_cases hh : st.halted = true
  · rw [deployStep_of_halted hh]
    show reportShape (st.report ++ [skippedEntry name]) st.halted
    rw [hh] at h ⊢
    obtain ⟨pre, f, post, hsplit, h1, h2, h3⟩ := reportShape_true.mp h
    refine reportShape_true.mpr ⟨pre, f, post ++ [skippedEntry name], ?_, h1, h2, ?_⟩
    · rw [hsplit]; simp
    · intro e he
      rcases List.mem_append.mp he with he | he
      · exact h3 e he
      · exact ⟨name, by simpa using he⟩
  · rw [Bool.not_eq_true] at hh
    have hall : ∀ e ∈ st.report, e.status = .succeeded := by
      rw [hh] at h; exact reportShape_false.mp h
    cases hf : findStack ss name with
    | none =>
      rw [deployStep_of_none hh hf]
      exact reportShape_true.mpr ⟨st.report, _, [], rfl, hall, rfl, by simp⟩
    | some s =>
      cases hr : resolve s.requiredInputs st.store with
      | error r =>
        rw [deployStep_of_unresolved hh hf hr]
        exact reportShape_true.mpr ⟨st.report, _, [], rfl, hall, rfl, by simp⟩
      | ok resolved =>
        cases hc : reconcileStack inject s resolved st.live with
        | error e =>
          rw [deployStep_of_reconcile_error hh hf hr hc]
          exact reportShape_true.mpr ⟨st.report, _, [], rfl, hall, rfl, by simp⟩
        | ok res =>
          rw [deployStep_of_ok hh hf hr hc]
          refine reportShape_false.mpr ?_
          intro e he
          rcases List.mem_append.mp he with he | he
          · exact hall e he
          · rw [List.mem_singleton] at he
            rw [he]

/-- The report shape is a run invariant. -/
theorem reportShape_loop {ss : List StackDef} {inject : String → Option String} :
    ∀ (order : List String) (st : RunState), reportShape st.report st.halted →
      reportShape (deployLoop ss inject order st).report
        (deployLoop ss inject order st).halted := by
  intro order
  induction order with
  | nil => intro st h; simpa [deployLoop_nil] using h
  | cons n order ih =>
    intro st h
    rw [deployLoop_cons]
    exact ih _ (reportShape_step h)

/-- One orchestrator step preserves recorded-output completeness. -/
theorem storeRecords_step {ss : List StackDef} {inject : String → Option String}
    {st : RunState} {name : String} (hnodup : (stackNames ss).Nodup)
    (h : storeRecords ss st) : storeRecords ss (deployStep ss inject st name) := by
  have hskip : ∀ (st' : RunState), st'.store = st.store →
      (∀ e ∈ st'.report, e ∈ st.report ∨ e.status ≠ .succeeded) →
      storeRecords ss st' := by
    intro st' hstore hrep e he hsucc s hs hname o ho
    rcases hrep e he with he' | he'
    · rw [hstore]
      exact h e he' hsucc s hs hname o ho
    · exact absurd hsucc he'
  by_cases hh : st.halted = true
  · rw [deployStep_of_halted hh]
    refine hskip _ rfl ?_
    intro e he
    rcases List.mem_append.mp he with he | he
    · exact Or.inl he
    · rw [List.mem_singleton] at he
      rw [he]
      exact Or.inr (by simp [skippedEntry])
  · rw [Bool.not_eq_true] at hh
    cases hf : findStack ss name with
    | none =>
      rw [deployStep_of_none hh hf]
      refine hskip _ rfl ?_
      intro e he
      rcases List.mem_append.mp he with he | he
      · exact Or.inl he
      · rw [List.mem_singleton] at he
        rw [he]
        exact Or.inr (by simp)
    | some s =>
      cases hr : resolve s.requiredInputs st.store with
      | error r =>
        rw [deployStep_of_unresolved hh hf hr]
        refine hskip _ rfl ?_
        intro e he
        rcases List.mem_append.mp he with he | he
        · exact Or.inl he
        · rw [List.mem_singleton] at he
          rw [he]
          exact Or.inr (by simp)
      | ok resolved =>
        cases hc : reconcileStack inject s resolved st.live with
        | error er =>
          rw [deployStep_of_reconcile_error hh hf hr hc]
          refine hskip _ rfl ?_
          intro e he
          rcases List.mem_append.mp he with he | he
          · exact Or.inl he
          · rw [List.mem_singleton] at he
            rw [he]
            exact Or.inr (by simp)
        | ok res =>
          rw [deployStep_of_ok hh hf hr hc]
          obtain ⟨hsmem, hsname⟩ := findStack_spec hf
          intro e he hsucc s' hs' hname o ho
          rcases List.mem_append.mp he with he | he
          · obtain ⟨v, hv⟩ := h e he hsucc s' hs' hname o ho
            exact ⟨v, keyFind_append_of_isSome hv⟩
          · rw [List.mem_singleton] at he
            have hename : e.stackName = name := by rw [he]
            have hs'name : s'.name = s.name := by rw [hname, hename, hsname]
            have heq : s' = s := List.inj_on_of_nodup_map hnodup hs' hsmem hs'name
            rw [heq] at ho
            have hon : o.1 ∈ res.outputs.map (fun o => o.1) := by
              rw [reconcileStack_ok_outputs hc]
              exact List.mem_map_of_mem _ ho
            rw [hs'name]
            show ∃ v, keyFind (st.store ++ res.outputs.map (fun o => ((s.name, o.1), o.2)))
              (s.name, o.1) = some v
            cases hold : keyFind st.store (s.name, o.1) with
            | some v => exact ⟨v, keyFind_append_of_isSome hold⟩
            | none =>
              rw [keyFind_append_of_none hold]
              exact keyFind_outputs_mem res.outputs (by simpa using hon)

/-- Recorded-output completeness is a run invariant. -/
theorem storeRecords_loop {ss : List StackDef} {inject : String → Option String}
    (hnodup : (stackNames ss).Nodup) :
    ∀ (order : List String) (st : RunState), storeRecords ss st →
      storeRecords ss (deployLoop ss inject order st) := by
  intro order
  induction order with
  | nil => intro st h; simpa [deployLoop_nil] using h
  | cons n order ih =>
    intro st h
    rw [deployLoop_cons]
    exact ih _ (storeRecords_step hnodup h)

/-- Orders returned by buildGraph have no duplicate stack names. -/
theorem buildGraph_ok_nodup {ss : List StackDef} {order : List String}
    (hnodup : (stackNames ss).Nodup) (hok : buildGraph ss = .ok order) :
    order.Nodup := by
  cases hu : unknownReferences ss with
  | cons hd tl =>
    obtain ⟨sn, r⟩ := hd
    rw [buildGraph_eq_error hu] at hok
    exact absurd hok (by simp)
  | nil =>
    rw [buildGraph_eq_kahn hu] at hok
    exact (kahnLoop_ok_inv ss hnodup ss.length [] order
      (by simp) (by simp) (by simp) hok).2.1

/-- C5: failure isolation.  If stack B (which depends on A) fails, then
every stack C depending on B is never attempted — its report entry is the
verbatim skipped entry (no operations), the pipeline having halted; A was
reconciled successfully beforehand and all of A's declared outputs remain
recorded in the Output Store; and the report covers exactly the computed
order, naming which stacks succeeded, failed and were skipped, with the
failure reason. -/
theorem failure_isolation (ss : List StackDef) (inject : String → Option String)
    (live₀ : Live) (order : List String) (st : RunState)
    (hnodup : (stackNames ss).Nodup)
    (hok : buildGraph ss = .ok order)
    (hst : deploy ss inject live₀ = .ok st)
    (A B C : String) (sB sC : StackDef)
    (hsB : sB ∈ ss) (hBname : sB.name = B) (hrBA : ∃ r ∈ sB.requiredInputs, r.stackName = A)
    (hsC : sC ∈ ss) (hCname : sC.name = C) (hrCB : ∃ r ∈ sC.requiredInputs, r.stackName = B)
    (eB : ReportEntry) (heB : eB ∈ st.report) (heBname : eB.stackName = B)
    (heBfail : eB.status = .failed) :
    (∀ e ∈ st.report, e.stackName = C → e = skippedEntry C) ∧
    (∃ eA ∈ st.report, eA.stackName = A ∧ eA.status = .succeeded) ∧
    (∀ s ∈ ss, s.name = A → ∀ o ∈ s.producedOutputs,
      ∃ v, storeFind st.store ⟨A, o.1⟩ = some v) ∧
    st.report.map (fun e => e.stackName) = order := by
  have hsteq : st = deployLoop ss inject order (initState live₀) := by
    have h1 := hst.symm.trans (deploy_eq_ok hok)
    exact (Except.ok.injEq _ _).mp h1
  have hnames : st.report.map (fun e => e.stackName) = order := by
    rw [hsteq]
    simpa [initState] using
      @deployLoop_report_names ss inject order (initState live₀)
  have hshape : reportShape st.report st.halted := by
    rw [hsteq]
    exact reportShape_loop order (initState live₀) (reportShape_false.mpr (by simp [initState]))
  have hrecords : storeRecords ss st := by
    rw [hsteq]
    exact storeRecords_loop hnodup order (initState live₀)
      (fun e he => absurd he (by simp [initState]))
  have htopo := buildGraph_places hnodup hok
  have hordnodup := buildGraph_ok_nodup hnodup hok
  have hBC : order.indexOf B < order.indexOf C := by
    obtain ⟨r, hr, hre⟩ := hrCB
    have h2 := ((htopo sC hsC).2 r hr).2
    rwa [hre, hCname] at h2
  have hAB : order.indexOf A < order.indexOf B := by
    obtain ⟨r, hr, hre⟩ := hrBA
    have h2 := ((htopo sB hsB).2 r hr).2
    rwa [hre, hBname] at h2
  have hAmem : A ∈ order := by
    obtain ⟨r, hr, hre⟩ := hrBA
    have h2 := ((htopo sB hsB).2 r hr).1
    rwa [hre] at h2
  cases hht : st.halted with
  | false =>
    rw [hht] at hshape
    have h2 := reportShape_false.mp hshape eB heB
    rw [heBfail] at h2
    exact absurd h2 (by simp)
  | true =>
    rw [hht] at hshape
    obtain ⟨pre, f, post, hsplit, hpre, hffail, hpost⟩ := reportShape_true.mp hshape
    have horder : order =
        pre.map (fun e => e.stackName) ++ f.stackName :: post.map (fun e => e.stackName) := by
      rw [← hnames, hsplit]
      simp
    have heBf : eB = f := by
      have heB' : eB ∈ pre ++ f :: post := by rw [← hsplit]; exact heB
      rcases List.mem_append.mp heB' with h2 | h2
      · have := hpre eB h2
        rw [heBfail] at this
        exact absurd this (by simp)
      · rcases List.mem_cons.mp h2 with h3 | h3
        · exact h3
        · obtain ⟨n, rfl⟩ := hpost eB h3
          exact absurd heBfail (by simp [skippedEntry])
    have hfB : f.stackName = B := by rw [← heBf, heBname]
    have hnodup' : (pre.map (fun e => e.stackName) ++
        B :: post.map (fun e => e.stackName)).Nodup := by
      rw [← hfB, ← horder]
      exact hordnodup
    have hBnotpre : B ∉ pre.map (fun e => e.stackName) :=
      fun hmem => (List.nodup_append.mp hnodup').2.2 hmem (List.mem_cons_self _ _)
    have hidxB : order.indexOf B = (pre.map (fun e => e.stackName)).length := by
      rw [horder, hfB, List.indexOf_append_of_not_mem hBnotpre, List.indexOf_cons_self]
      omega
    refine ⟨?_, ?_, ?_, hnames⟩
    · intro e he heC
      have he' : e ∈ pre ++ f :: post := by rw [← hsplit]; exact he
      rcases List.mem_append.mp he' with h2 | h2
      · exfalso
        have hCpre : C ∈ pre.map (fun x => x.stackName) := List.mem_map.mpr ⟨e, h2, heC⟩
        have hidxC : order.indexOf C < (pre.map (fun e => e.stackName)).length := by
          rw [horder, List.indexOf_append_of_mem hCpre]
          exact List.indexOf_lt_length.mpr hCpre
        omega
      · rcases List.mem_cons.mp h2 with h3 | h3
        · exfalso
          have : C = B := by rw [← heC, h3, hfB]
          rw [this] at hBC
          exact lt_irrefl _ hBC
        · obtain ⟨n, rfl⟩ := hpost e h3
          have : n = C := by simpa [skippedEntry] using heC
          rw [this]
    · have hArep : A ∈ st.report.map (fun e => e.stackName) := by rw [hnames]; exact hAmem
      obtain ⟨eA, heA, heAname⟩ := List.mem_map.mp hArep
      refine ⟨eA, heA, heAname, ?_⟩
      have heA' : eA ∈ pre ++ f :: post := by rw [← hsplit]; exact heA
      rcases List.mem_append.mp heA' with h2 | h2
      · exact hpre eA h2
      · exfalso
        rcases List.mem_cons.mp h2 with h3 | h3
        · have : A = B := by rw [← heAname, h3, hfB]
          rw [this] at hAB
          exact lt_irrefl _ hAB
        · have hApost : A ∈ post.map (fun x => x.stackName) := List.mem_map.mpr ⟨eA, h3, heAname⟩
          have hdis := (List.nodup_append.mp hnodup').2.2
          have hAnotpre : A ∉ pre.map (fun e => e.stackName) :=
            fun hmem => hdis hmem (List.mem_cons_of_mem _ hApost)
          have hABne : B ≠ A := by
            intro h4
            have := (List.nodup_append.mp hnodup').2.1
            rw [List.nodup_cons] at this
            exact this.1 (h4 ▸ hApost)
          have hidxA : order.indexOf A =
              (pre.map (fun e => e.stackName)).length + (order.indexOf A -
                (pre.map (fun e => e.stackName)).length) := by
            rw [horder, hfB, List.indexOf_append_of_not_mem hAnotpre,
              List.indexOf_cons_ne _ hABne]
            omega
          have hge : (pre.map (fun e => e.stackName)).length < order.indexOf A := by
            rw [horder, hfB, List.indexOf_append_of_not_mem hAnotpre,
              List.indexOf_cons_ne _ hABne]
            omega
          omega
    · intro s hs hsA o ho
      have hArep : A ∈ st.report.map (fun e => e.stackName) := by rw [hnames]; exact hAmem
      obtain ⟨eA, heA, heAname⟩ := List.mem_map.mp hArep
      have heAsucc : eA.status = .succeeded := by
        have heA' : eA ∈ pre ++ f :: post := by rw [← hsplit]; exact heA
        rcases List.mem_append.mp heA' with h2 | h2
        · exact hpre eA h2
        · exfalso
          rcases List.mem_cons.mp h2 with h3 | h3
          · have : A = B := by rw [← heAname, h3, hfB]
            rw [this] at hAB
            exact lt_irrefl _ hAB
          · have hApost : A ∈ post.map (fun x => x.stackName) :=
              List.mem_map.mpr ⟨eA, h3, heAname⟩
            have hdis := (List.nodup_append.mp hnodup').2.2
            have hAnotpre : A ∉ pre.map (fun e => e.stackName) :=
              fun hmem => hdis hmem (List.mem_cons_of_mem _ hApost)
            have hABne : B ≠ A := by
              intro h4
              have := (List.nodup_append.mp hnodup').2.1
              rw [List.nodup_cons] at this
              exact this.1 (h4 ▸ hApost)
            have hge : (pre.map (fun e => e.stackName)).length < order.indexOf A := by
              rw [horder, hfB, List.indexOf_append_of_not_mem hAnotpre,
                List.indexOf_cons_ne _ hABne]
              omega
            omega
      obtain ⟨v, hv⟩ := hrecords eA heA heAsucc s hs (by rw [hsA, heAname]) o ho
      rw [hsA] at hv
      exact ⟨v, hv⟩

/-- Witness for C5: the concrete pipeline with an injected App failure —
Dns (= A) succeeded with outputs recorded, App (= B) failed, Monitoring
(= C) skipped and never attempted. -/
theorem failure_isolation_witness :
    (∀ e ∈ (deployLoop scenarioStacks
        (fun n => if n = "App" then some "boom" else none)
        ["Dns", "CiCd", "App", "Monitoring"] (initState [])).report,
      e.stackName = "Monitoring" → e = skippedEntry "Monitoring") ∧
    (∃ eA ∈ (deployLoop scenarioStacks
        (fun n => if n = "App" then some "boom" else none)
        ["Dns", "CiCd", "App", "Monitoring"] (initState [])).report,
      eA.stackName = "Dns" ∧ eA.status = .succeeded) ∧
    (∀ s ∈ scenarioStacks, s.name = "Dns" → ∀ o ∈ s.producedOutputs,
      ∃ v, storeFind (deployLoop scenarioStacks
        (fun n => if n = "App" then some "boom" else none)
        ["Dns", "CiCd", "App", "Monitoring"] (initState [])).store ⟨"Dns", o.1⟩ = some v) ∧
    (deployLoop scenarioStacks (fun n => if n = "App" then some "boom" else none)
      ["Dns", "CiCd", "App", "Monitoring"] (initState [])).report.map
        (fun e => e.stackName) = ["Dns", "CiCd", "App", "Monitoring"] :=
  failure_isolation scenarioStacks (fun n => if n = "App" then some "boom" else none)
    [] ["Dns", "CiCd", "App", "Monitoring"]
    (deployLoop scenarioStacks (fun n => if n = "App" then some "boom" else none)
      ["Dns", "CiCd", "App", "Monitoring"] (initState []))
    (by decide) rfl rfl
    "Dns" "App" "Monitoring" appStack monitoringStack
    (by decide) rfl ⟨⟨"Dns", "hostedZoneId"⟩, by decide, rfl⟩
    (by decide) rfl ⟨⟨"App", "distributionId"⟩, by decide, rfl⟩
    ⟨"App", .failed, [], [], [],
      [(⟨"Dns", "hostedZoneId"⟩, "Z123"), (⟨"Dns", "certificateArn"⟩, "arn:cert:1")],
      some (.reconcile (.injected "boom"))⟩
    (by decide) rfl rfl

/-- A fresh live binding is found. -/
theorem keyFind_cons_self {β : Type} {l : List ((String × String) × β)}
    {k : String × String} {v : β} : keyFind ((k, v) :: l) k = some v := by
  rw [keyFind, List.find?_cons_of_pos _ (by simp)]
  rfl

/-- A fresh live binding does not shadow other keys. -/
theorem keyFind_cons_other {β : Type} {l : List ((String × String) × β)}
    {k k' : String × String} {v : β} (h : k' ≠ k) :
    keyFind ((k, v) :: l) k' = keyFind l k' := by
  rw [keyFind, keyFind, List.find?_cons_of_neg]
  simp only [Bool.and_eq_true, beq_iff_eq, not_and]
  intro h1 h2
  exact h (Prod.ext h1.symm h2.symm)

/-- Erasing a key leaves lookups of other keys unchanged. -/
theorem keyFind_filterOut {β : Type} {l : List ((String × String) × β)}
    {k k' : String × String} (h : k' ≠ k) :
    keyFind (l.filter (fun p => !(p.1.1 == k.1 && p.1.2 == k.2))) k' = keyFind l k' := by
  induction l with
  | nil => rfl
  | cons hd tl ih =>
    obtain ⟨hk1, hv1⟩ := hd
    by_cases hk : (hk1.1 == k.1 && hk1.2 == k.2) = true
    · have hdk : hk1 = k := by
        simp only [Bool.and_eq_true, beq_iff_eq] at hk
        exact Prod.ext hk.1 hk.2
      rw [List.filter_cons, if_neg (by simp [hk]), ih,
        keyFind_cons_other (by rw [hdk]; exact h)]
    · have hkf : (hk1.1 == k.1 && hk1.2 == k.2) = false := by
        cases hx : (hk1.1 == k.1 && hk1.2 == k.2) with
        | false => rfl
        | true => exact absurd hx hk
      rw [List.filter_cons, if_pos (by simp [hkf])]
      by_cases hm : k' = hk1
      · rw [hm, keyFind_cons_self, keyFind_cons_self]
      · rw [keyFind_cons_other hm, keyFind_cons_other hm, ih]

/-- The updated resource reads back its new configuration. -/
theorem keyFind_liveSet_self {live : Live} {k : String × String}
    {v : List (String × String)} : keyFind (liveSet live k v) k = some v := by
  rw [liveSet]
  exact keyFind_cons_self

/-- Updating one resource leaves every other resource's live state. -/
theorem keyFind_liveSet_other {live : Live} {k k' : String × String}
    {v : List (String × String)} (h : k' ≠ k) :
    keyFind (liveSet live k v) k' = keyFind live k' := by
  rw [liveSet, keyFind_cons_other h, keyFind_filterOut h]

/-- Applying a stack's resources only touches that stack's keys. -/
theorem applyResources_untouched {sn : String} {resolved : List (Reference × String)} :
    ∀ (rs : List ResourceSpec) (live : Live) (cr up un : List String) (live' : Live),
      applyResources sn resolved rs live = .ok (cr, up, un, live') →
      ∀ k, (∀ r ∈ rs, k ≠ (sn, r.id)) → keyFind live' k = keyFind live k := by
  intro rs
  induction rs with
  | nil =>
    intro live cr up un live' h k _
    rw [applyResources] at h
    simp only [Except.ok.injEq, Prod.mk.injEq] at h
    rw [← h.2.2.2]
  | cons r rest ih =>
    intro live cr up un live' h k hk
    rw [applyResources] at h
    have hkr : k ≠ (sn, r.id) := hk r (List.mem_cons_self _ _)
    have hkrest : ∀ r' ∈ rest, k ≠ (sn, r'.id) := fun r' hr' => hk r' (List.mem_cons_of_mem _ hr')
    cases hm : materializeConfig resolved r.config with
    | none => simp only [hm] at h; exact absurd h (by simp)
    | some d =>
      simp only [hm] at h
      cases hl : keyFind live (sn, r.id) with
      | none =>
        simp only [hl] at h
        cases happ : applyResources sn resolved rest (liveSet live (sn, r.id) d) with
        | error e => simp only [happ] at h; exact absurd h (by simp)
        | ok quad =>
          obtain ⟨cr2, up2, un2, live2⟩ := quad
          simp only [happ, Except.ok.injEq, Prod.mk.injEq] at h
          rw [← h.2.2.2, ih _ _ _ _ _ happ k hkrest, keyFind_liveSet_other hkr]
      | some attrs =>
        simp only [hl] at h
        by_cases heq : attrs = d
        · rw [if_pos heq] at h
          cases happ : applyResources sn resolved rest live with
          | error e => simp only [happ] at h; exact absurd h (by simp)
          | ok quad =>
            obtain ⟨cr2, up2, un2, live2⟩ := quad
            simp only [happ, Except.ok.injEq, Prod.mk.injEq] at h
            rw [← h.2.2.2, ih _ _ _ _ _ happ k hkrest]
        · rw [if_neg heq] at h
          cases happ : applyResources sn resolved rest (liveSet live (sn, r.id) d) with
          | error e => simp only [happ] at h; exact absurd h (by simp)
          | ok quad =>
            obtain ⟨cr2, up2, un2, live2⟩ := quad
            simp only [happ, Except.ok.injEq, Prod.mk.injEq] at h
            rw [← h.2.2.2, ih _ _ _ _ _ happ k hkrest, keyFind_liveSet_other hkr]

/-- Materialization preserves the configured attribute names. -/
theorem materializeConfig_keys {resolved : List (Reference × String)} :
    ∀ (cfg : List (String × ConfigValue)) (d : List (String × String)),
      materializeConfig resolved cfg = some d → d.map Prod.fst = cfg.map Prod.fst := by
  intro cfg
  induction cfg with
  | nil =>
    intro d h
    rw [materializeConfig] at h
    obtain rfl : ([] : List (String × String)) = d := (Option.some.injEq _ _).mp h
    rfl
  | cons kv rest ih =>
    intro d h
    rw [materializeConfig] at h
    cases hv : materializeValue resolved kv.2 with
    | none => simp only [hv] at h; exact absurd h (by simp)
    | some w =>
      simp only [hv] at h
      cases hr : materializeConfig resolved rest with
      | none => simp only [hr] at h; exact absurd h (by simp)
      | some tl =>
        simp only [hr, Option.some.injEq] at h
        rw [← h]
        simp [ih tl hr]

/-- A declared reference resolves among the resolved inputs. -/
theorem refLookup_of_mem {l : List (Reference × String)} {r : Reference}
    (h : r ∈ l.map Prod.fst) : ∃ v, refLookup l r = some v := by
  induction l with
  | nil => exact absurd h (by simp)
  | cons p rest ih =>
    by_cases hp : p.1 = r
    · exact ⟨p.2, by rw [refLookup, List.find?_cons_of_pos _ (by simp [hp])]; rfl⟩
    · have hrest : r ∈ rest.map Prod.fst := by
        obtain ⟨x, hx, hxe⟩ := List.mem_map.mp h
        rcases List.mem_cons.mp hx with rfl | hx'
        · exact absurd hxe hp
        · exact List.mem_map.mpr ⟨x, hx', hxe⟩
      obtain ⟨v, hv⟩ := ih hrest
      refine ⟨v, ?_⟩
      rw [refLookup, List.find?_cons_of_neg _ (by simp [hp])]
      rw [refLookup] at hv
      exact hv

/-- Materialization succeeds when every configured reference resolves. -/
theorem materializeConfig_total {resolved : List (Reference × String)} :
    ∀ cfg : List (String × ConfigValue),
      (∀ kv ∈ cfg, ∀ r : Reference, kv.2 = .ref r → ∃ v, refLookup resolved r = some v) →
      ∃ d, materializeConfig resolved cfg = some d := by
  intro cfg
  induction cfg with
  | nil => intro _; exact ⟨[], rfl⟩
  | cons kv rest ih =>
    intro h
    obtain ⟨tl, htl⟩ := ih (fun kv' h' => h kv' (List.mem_cons_of_mem _ h'))
    have hval : ∃ w, materializeValue resolved kv.2 = some w := by
      cases hv : kv.2 with
      | lit s => exact ⟨s, by rw [materializeValue]⟩
      | ref r =>
        obtain ⟨v, hv2⟩ := h kv (List.mem_cons_self _ _) r hv
        exact ⟨v, by rw [materializeValue]; exact hv2⟩
    obtain ⟨w, hw⟩ := hval
    exact ⟨(kv.1, w) :: tl, by rw [materializeConfig]; simp only [hw, htl]⟩

/-- Resolution succeeds when every required reference is recorded. -/
theorem resolve_total :
    ∀ (inputs : List Reference) (store : OutputStore),
      (∀ r ∈ inputs, ∃ v, storeFind store r = some v) →
      ∃ l, resolve inputs store = .ok l ∧ l.map Prod.fst = inputs := by
  intro inputs
  induction inputs with
  | nil => intro store _; exact ⟨[], rfl, rfl⟩
  | cons r rest ih =>
    intro store h
    obtain ⟨v, hv⟩ := h r (List.mem_cons_self _ _)
    obtain ⟨tl, htl, hmap⟩ := ih store (fun r' h' => h r' (List.mem_cons_of_mem _ h'))
    refine ⟨(r, v) :: tl, ?_, by simp [hmap]⟩
    rw [resolve]
    simp only [hv, htl]

/-- A present attribute name is readable. -/
theorem strLookup_of_mem_keys {l : List (String × String)} {k : String}
    (h : k ∈ l.map Prod.fst) : ∃ v, strLookup l k = some v := by
  induction l with
  | nil => exact absurd h (by simp)
  | cons p rest ih =>
    by_cases hp : p.1 = k
    · exact ⟨p.2, by rw [strLookup, List.find?_cons_of_pos _ (by simp [hp])]; rfl⟩
    · have hrest : k ∈ rest.map Prod.fst := by
        obtain ⟨x, hx, hxe⟩ := List.mem_map.mp h
        rcases List.mem_cons.mp hx with rfl | hx'
        · exact absurd hxe hp
        · exact List.mem_map.mpr ⟨x, hx', hxe⟩
      obtain ⟨v, hv⟩ := ih hrest
      refine ⟨v, ?_⟩
      rw [strLookup, List.find?_cons_of_neg _ (by simp [hp])]
      rw [strLookup] at hv
      exact hv

/-- Output reading succeeds when every declared output is live. -/
theorem readOutputs_total {sn : String} {live : Live} :
    ∀ outs : List (String × String × String),
      (∀ o ∈ outs, ∃ attrs, keyFind live (sn, o.2.1) = some attrs ∧
        ∃ v, strLookup attrs o.2.2 = some v) →
      ∃ l, readOutputs sn live outs = .ok l := by
  intro outs
  induction outs with
  | nil => intro _; exact ⟨[], rfl⟩
  | cons o rest ih =>
    intro h
    obtain ⟨attrs, hattrs, v, hv⟩ := h o (List.mem_cons_self _ _)
    obtain ⟨tl, htl⟩ := ih (fun o' h' => h o' (List.mem_cons_of_mem _ h'))
    obtain ⟨oname, rid, attr⟩ := o
    refine ⟨(oname, v) :: tl, ?_⟩
    rw [readOutputs]
    simp only [hattrs, hv, htl]

/-- Output reading only depends on the stack's own live resources. -/
theorem readOutputs_congr {sn : String} {live live' : Live}
    (h : ∀ rid, keyFind live (sn, rid) = keyFind live' (sn, rid)) :
    ∀ outs : List (String × String × String),
      readOutputs sn live outs = readOutputs sn live' outs := by
  intro outs
  induction outs with
  | nil => rfl
  | cons o rest ih =>
    obtain ⟨oname, rid, attr⟩ := o
    rw [readOutputs, readOutputs, h rid, ih]

/-- Decomposition of a successful reconciliation. -/
theorem reconcileStack_ok_elim {inject : String → Option String} {s : StackDef}
    {resolved : List (Reference × String)} {live : Live} {res : ReconcileResult}
    (h : reconcileStack inject s resolved live = .ok res) :
    inject s.name = none ∧
    applyResources s.name resolved s.resources live =
      .ok (res.created, res.updated, res.unchangedIds, res.newLive) ∧
    readOutputs s.name res.newLive s.producedOutputs = .ok res.outputs := by
  rw [reconcileStack] at h
  cases hinj : inject s.name with
  | some msg => rw [hinj] at h; exact absurd h (by simp)
  | none =>
    simp only [hinj] at h
    cases happ : applyResources s.name resolved s.resources live with
    | error e => simp only [happ] at h; exact absurd h (by simp)
    | ok quad =>
      obtain ⟨cr, up, un, live'⟩ := quad
      simp only [happ] at h
      cases hread : readOutputs s.name live' s.producedOutputs with
      | error e => simp only [hread] at h; exact absurd h (by simp)
      | ok outs =>
        simp only [hread] at h
        obtain rfl : ReconcileResult.mk cr up un outs live' = res :=
          (Except.ok.injEq _ _).mp h
        refine ⟨rfl, rfl, ?_⟩
        exact hread

/-- Assembly of a successful reconciliation. -/
theorem reconcileStack_eq_ok {inject : String → Option String} {s : StackDef}
    {resolved : List (Reference × String)} {live : Live} {cr up un : List String}
    {live' : Live} {outs : List (String × String)}
    (hinj : inject s.name = none)
    (happ : applyResources s.name resolved s.resources live = .ok (cr, up, un, live'))
    (hread : readOutputs s.name live' s.producedOutputs = .ok outs) :
    reconcileStack inject s resolved live = .ok ⟨cr, up, un, outs, live'⟩ := by
  rw [reconcileStack]
  simp only [hinj, happ, hread]

/-- When every configuration materializes and resource ids are unique,
the diff-and-apply pass succeeds and leaves the live state agreeing with
the materialized desired state of every resource. -/
theorem applyResources_ok_agrees {sn : String} {resolved : List (Reference × String)} :
    ∀ (rs : List ResourceSpec) (live : Live),
      (∀ r ∈ rs, ∃ d, materializeConfig resolved r.config = some d) →
      (rs.map (fun r => r.id)).Nodup →
      ∃ cr up un live', applyResources sn resolved rs live = .ok (cr, up, un, live') ∧
        ∀ r ∈ rs, ∀ d, materializeConfig resolved r.config = some d →
          keyFind live' (sn, r.id) = some d := by
  intro rs
  induction rs with
  | nil => intro live _ _; exact ⟨[], [], [], live, by rw [applyResources], by simp⟩
  | cons r rest ih =>
    intro live hmat hnd
    obtain ⟨d, hd⟩ := hmat r (List.mem_cons_self _ _)
    have hmr : ∀ r' ∈ rest, ∃ d', materializeConfig resolved r'.config = some d' :=
      fun r' h => hmat r' (List.mem_cons_of_mem _ h)
    have hcons := List.nodup_cons.mp
      (show (r.id :: rest.map (fun x => x.id)).Nodup from hnd)
    have hagree_head : ∀ (live₂ : Live) (cr up un : List String) (live' : Live),
        keyFind live₂ (sn, r.id) = some d →
        applyResources sn resolved rest live₂ = .ok (cr, up, un, live') →
        keyFind live' (sn, r.id) = some d := by
      intro live₂ cr up un live' hkey happ
      rw [applyResources_untouched rest live₂ cr up un live' happ (sn, r.id) ?_]
      · exact hkey
      · intro r2 hr2 heq
        have : r.id = r2.id := congrArg Prod.snd heq
        exact hcons.1 (this ▸ List.mem_map_of_mem _ hr2)
    cases hl : keyFind live (sn, r.id) with
    | none =>
      obtain ⟨cr, up, un, live', happ, hagree⟩ := ih (liveSet live (sn, r.id) d) hmr hcons.2
      refine ⟨r.id :: cr, up, un, live', ?_, ?_⟩
      · rw [applyResources]; simp only [hd, hl, happ]
      · intro r' hr' d' hd'
        rcases List.mem_cons.mp hr' with rfl | hr2
        · obtain rfl : d = d' := (Option.some.injEq _ _).mp (hd.symm.trans hd')
          exact hagree_head _ cr up un live' keyFind_liveSet_self happ
        · exact hagree r' hr2 d' hd'
    | some attrs =>
      by_cases heq : attrs = d
      · obtain ⟨cr, up, un, live', happ, hagree⟩ := ih live hmr hcons.2
        refine ⟨cr, up, r.id :: un, live', ?_, ?_⟩
        · rw [applyResources]; simp only [hd, hl]; rw [if_pos heq]; simp only [happ]
        · intro r' hr' d' hd'
          rcases List.mem_cons.mp hr' with rfl | hr2
          · obtain rfl : d = d' := (Option.some.injEq _ _).mp (hd.symm.trans hd')
            exact hagree_head _ cr up un live' (by rw [hl, heq]) happ
          · exact hagree r' hr2 d' hd'
      · obtain ⟨cr, up, un, live', happ, hagree⟩ := ih (liveSet live (sn, r.id) d) hmr hcons.2
        refine ⟨cr, r.id :: up, un, live', ?_, ?_⟩
        · rw [applyResources]; simp only [hd, hl]; rw [if_neg heq]; simp only [happ]
        · intro r' hr' d' hd'
          rcases List.mem_cons.mp hr' with rfl | hr2
          · obtain rfl : d = d' := (Option.some.injEq _ _).mp (hd.symm.trans hd')
            exact hagree_head _ cr up un live' keyFind_liveSet_self happ
          · exact hagree r' hr2 d' hd'

/-- When live state already matches every materialized configuration, the
diff classifies everything Unchanged and applies nothing. -/
theorem applyResources_unchanged {sn : String} {resolved : List (Reference × String)} :
    ∀ (rs : List ResourceSpec) (live : Live),
      (∀ r ∈ rs, ∃ d, materializeConfig resolved r.config = some d ∧
        keyFind live (sn, r.id) = some d) →
      applyResources sn resolved rs live = .ok ([], [], rs.map (fun r => r.id), live) := by
  intro rs
  induction rs with
  | nil => intro live _; rw [applyResources]; rfl
  | cons r rest ih =>
    intro live h
    obtain ⟨d, hd, hk⟩ := h r (List.mem_cons_self _ _)
    rw [applyResources]
    simp only [hd, hk, ih live (fun r' h' => h r' (List.mem_cons_of_mem _ h'))]
    simp

/-- One orchestrator step never touches the live resources of a stack it
is not processing. -/
theorem deployStep_live_keys {ss : List StackDef} {inject : String → Option String}
    {st : RunState} {name sn rid : String} (hne : sn ≠ name) :
    keyFind (deployStep ss inject st name).live (sn, rid) = keyFind st.live (sn, rid) := by
  by_cases hh : st.halted = true
  · rw [deployStep_of_halted hh]
  · rw [Bool.not_eq_true] at hh
    cases hf : findStack ss name with
    | none => rw [deployStep_of_none hh hf]
    | some s =>
      cases hr : resolve s.requiredInputs st.store with
      | error r => rw [deployStep_of_unresolved hh hf hr]
      | ok resolved =>
        cases hc : reconcileStack inject s resolved st.live with
        | error e => rw [deployStep_of_reconcile_error hh hf hr hc]
        | ok res =>
          rw [deployStep_of_ok hh hf hr hc]
          obtain ⟨-, happ, -⟩ := reconcileStack_ok_elim hc
          have hsname : s.name = name := (findStack_spec hf).2
          refine applyResources_untouched s.resources st.live _ _ _ _ happ (sn, rid) ?_
          intro r2 _ heq
          exact hne ((congrArg Prod.fst heq).trans hsname)

/-- A run never touches the live resources of stacks outside the order it
processes. -/
theorem deployLoop_live_keys {ss : List StackDef} {inject : String → Option String} :
    ∀ (todo : List String) (st : RunState) (sn rid : String), sn ∉ todo →
      keyFind (deployLoop ss inject todo st).live (sn, rid) = keyFind st.live (sn, rid) := by
  intro todo
  induction todo with
  | nil => intro st sn rid _; rw [deployLoop_nil]
  | cons n rest ih =>
    intro st sn rid hmem
    rw [deployLoop_cons, ih _ sn rid (fun h => hmem (List.mem_cons_of_mem _ h)),
      deployStep_live_keys (fun h => hmem (by rw [h]; exact List.mem_cons_self _ _))]

/-- With unique stack names, findStack returns the declared stack. -/
theorem findStack_eq_some {ss : List StackDef} (hnodup : (stackNames ss).Nodup) :
    ∀ {s : StackDef}, s ∈ ss → findStack ss s.name = some s := by
  induction ss with
  | nil => intro s hs; cases hs
  | cons t ts ih =>
    intro s hs
    have hnd := List.nodup_cons.mp
      (show (t.name :: stackNames ts).Nodup from hnodup)
    rcases List.mem_cons.mp hs with rfl | hs'
    · rw [findStack, List.find?_cons_of_pos _ (by simp)]
    · have hne : t.name ≠ s.name := by
        intro h
        exact hnd.1 (h ▸ List.mem_map_of_mem _ hs')
      rw [findStack, List.find?_cons_of_neg _ (by simp [hne])]
      exact ih hnd.2 hs'

/-- Every entry of a returned order is a declared stack name. -/
theorem buildGraph_ok_names {ss : List StackDef} {order : List String}
    (hnodup : (stackNames ss).Nodup) (hok : buildGraph ss = .ok order) :
    ∀ n ∈ order, n ∈ stackNames ss := by
  cases hu : unknownReferences ss with
  | cons hd tl =>
    obtain ⟨sn, r⟩ := hd
    rw [buildGraph_eq_error hu] at hok
    exact absurd hok (by simp)
  | nil =>
    rw [buildGraph_eq_kahn hu] at hok
    exact (kahnLoop_ok_inv ss hnodup ss.length [] order
      (by simp) (by simp) (by simp) hok).2.2.1

/-- One failure-free orchestrator step over a well-formed stack set: the
next stack of the order resolves its inputs from the store, reconciles
successfully, ends agreeing with its materialized desired state, and the
store then covers it too. -/
theorem run1_step (ss : List StackDef) (order : List String)
    (hnodup : (stackNames ss).Nodup) (htopo : placesAfterProducers ss order)
    (hordnodup : order.Nodup) (hnames : ∀ n ∈ order, n ∈ stackNames ss)
    (href : knownRefsB ss = true) (hwf : wellFormedOutputsB ss = true)
    (hcfg : configRefsDeclaredB ss = true) (hids : nodupIdsB ss = true)
    (done : List String) (name : String) (rest : List String)
    (horder : order = done ++ name :: rest)
    (st : RunState) (hhalt : st.halted = false)
    (hcover : storeCovers ss done st.store) :
    ∃ s resolved res,
      findStack ss name = some s ∧ s ∈ ss ∧ s.name = name ∧
      resolve s.requiredInputs st.store = .ok resolved ∧
      reconcileStack (fun _ => none) s resolved st.live = .ok res ∧
      deployStep ss (fun _ => none) st name =
        ⟨res.newLive, st.store ++ res.outputs.map (fun o => ((s.name, o.1), o.2)),
          st.report ++
            [⟨name, .succeeded, res.created, res.updated, res.unchangedIds, resolved, none⟩],
          false⟩ ∧
      (∀ r ∈ s.resources, ∀ d, materializeConfig resolved r.config = some d →
        keyFind res.newLive (s.name, r.id) = some d) ∧
      (∀ r ∈ s.resources, ∃ d, materializeConfig resolved r.config = some d) ∧
      storeCovers ss (done ++ [name]) (deployStep ss (fun _ => none) st name).store := by
  have hname_mem : name ∈ stackNames ss := hnames name (by rw [horder]; simp)
  obtain ⟨s, hs, hsname⟩ := List.mem_map.mp hname_mem
  have hfind : findStack ss name = some s := by
    rw [← hsname]
    exact findStack_eq_some hnodup hs
  have hnamedone : name ∉ done := by
    intro hmem
    have h2 := hordnodup
    rw [horder] at h2
    exact (List.nodup_append.mp h2).2.2 hmem (List.mem_cons_self _ _)
  have hidxname : order.indexOf name = done.length := by
    rw [horder, List.indexOf_append_of_not_mem hnamedone, List.indexOf_cons_self]
    omega
  have hall : ∀ r ∈ s.requiredInputs, ∃ v, storeFind st.store r = some v := by
    intro r hr
    obtain ⟨p, hp, hpname, hpdecl⟩ := referenceKnown_spec
      (List.all_eq_true.mp (List.all_eq_true.mp href s hs) r hr)
    have hidx := ((htopo s hs).2 r hr).2
    rw [hsname, hidxname] at hidx
    have hxdone : r.stackName ∈ done := by
      by_contra hnot
      have h2 : order.indexOf r.stackName =
          done.length + (name :: rest).indexOf r.stackName := by
        rw [horder, List.indexOf_append_of_not_mem hnot]
      omega
    obtain ⟨o, ho, hoeq⟩ := List.any_eq_true.mp hpdecl
    have hoeq' : o.1 = r.outputName := by simpa using hoeq
    obtain ⟨v, hv⟩ := hcover p hp (by rw [hpname]; exact hxdone) o ho
    refine ⟨v, ?_⟩
    have h3 : storeFind st.store ⟨r.stackName, r.outputName⟩ = some v := by
      rw [← hpname, ← hoeq']
      exact hv
    exact h3
  obtain ⟨resolved, hres, hresmap⟩ := resolve_total s.requiredInputs st.store hall
  have hmat : ∀ r ∈ s.resources, ∃ d, materializeConfig resolved r.config = some d := by
    intro r hr
    refine materializeConfig_total r.config ?_
    intro kv hkv rf hrf
    have h2 := List.all_eq_true.mp
      (List.all_eq_true.mp (List.all_eq_true.mp hcfg s hs) r hr) kv hkv
    rw [hrf] at h2
    obtain ⟨r2, hr2, hr2eq⟩ := List.any_eq_true.mp h2
    have : rf ∈ resolved.map Prod.fst := by
      rw [hresmap]
      exact (of_decide_eq_true hr2eq) ▸ hr2
    exact refLookup_of_mem this
  have hidsnd : (s.resources.map (fun r => r.id)).Nodup :=
    of_decide_eq_true (List.all_eq_true.mp hids s hs)
  obtain ⟨cr, up, un, live', happ, hagree⟩ :=
    applyResources_ok_agrees s.resources st.live hmat hidsnd
  have hreadable : ∀ o ∈ s.producedOutputs, ∃ attrs,
      keyFind live' (s.name, o.2.1) = some attrs ∧ ∃ v, strLookup attrs o.2.2 = some v := by
    intro o ho
    have h2 := List.all_eq_true.mp (List.all_eq_true.mp hwf s hs) o ho
    obtain ⟨r2, hr2, hr2eq⟩ := List.any_eq_true.mp h2
    rw [Bool.and_eq_true] at hr2eq
    have hid : r2.id = o.2.1 := by simpa using hr2eq.1
    obtain ⟨a2, ha2, ha2eq⟩ := List.any_eq_true.mp hr2eq.2
    have hattr : a2.1 = o.2.2 := by simpa using ha2eq
    obtain ⟨d, hd⟩ := hmat r2 hr2
    refine ⟨d, ?_, ?_⟩
    · rw [← hid]
      exact hagree r2 hr2 d hd
    · refine strLookup_of_mem_keys ?_
      rw [materializeConfig_keys r2.config d hd, ← hattr]
      exact List.mem_map_of_mem _ ha2
  obtain ⟨outs, houts⟩ := readOutputs_total s.producedOutputs hreadable
  have hrecon : reconcileStack (fun _ => none) s resolved st.live =
      .ok ⟨cr, up, un, outs, live'⟩ :=
    reconcileStack_eq_ok rfl happ houts
  have hstep := deployStep_of_ok hhalt hfind hres hrecon
  refine ⟨s, resolved, ⟨cr, up, un, outs, live'⟩, hfind, hs, hsname, hres, hrecon,
    hstep, ?_, hmat, ?_⟩
  · intro r hr d hd
    exact hagree r hr d hd
  · rw [hstep]
    intro sp hsp hspdone o ho
    rcases List.mem_append.mp hspdone with hspd | hspn
    · obtain ⟨v, hv⟩ := hcover sp hsp hspd o ho
      exact ⟨v, keyFind_append_of_isSome hv⟩
    · rw [List.mem_singleton] at hspn
      have hspname : sp.name = s.name := by rw [hspn, hsname]
      have heq2 : sp = s := List.inj_on_of_nodup_map hnodup hsp hs hspname
      rw [heq2] at ho
      have hon : o.1 ∈ outs.map (fun x => x.1) := by
        rw [readOutputs_names s.producedOutputs outs houts]
        exact List.mem_map_of_mem _ ho
      show ∃ v, keyFind (st.store ++ outs.map (fun o => ((s.name, o.1), o.2)))
        (sp.name, o.1) = some v
      rw [hspname]
      cases hold : keyFind st.store (s.name, o.1) with
      | some v => exact ⟨v, keyFind_append_of_isSome hold⟩
      | none =>
        rw [keyFind_append_of_none hold]
        exact keyFind_outputs_mem outs (by simpa using hon)

/-- A returned order certifies that every reference was known. -/
theorem knownRefs_of_buildGraph_ok {ss : List StackDef} {order : List String}
    (hok : buildGraph ss = .ok order) : knownRefsB ss = true := by
  cases hu : unknownReferences ss with
  | cons hd tl =>
    obtain ⟨sn, r⟩ := hd
    rw [buildGraph_eq_error hu] at hok
    exact absurd hok (by simp)
  | nil =>
    rw [knownRefsB, List.all_eq_true]
    intro s hs
    rw [List.all_eq_true]
    intro r hr
    cases hk : referenceKnown ss r with
    | true => rfl
    | false =>
      exfalso
      have : (s.name, r) ∈ unknownReferences ss :=
        mem_unknownReferences.mpr ⟨s, hs, rfl, hr, hk⟩
      rw [hu] at this
      exact List.not_mem_nil _ this

/-- A failure-free run over a well-formed stack set never halts, covers
every processed stack's outputs, and reports only successes. -/
theorem run1_loop (ss : List StackDef) (order : List String)
    (hnodup : (stackNames ss).Nodup) (htopo : placesAfterProducers ss order)
    (hordnodup : order.Nodup) (hnames : ∀ n ∈ order, n ∈ stackNames ss)
    (href : knownRefsB ss = true) (hwf : wellFormedOutputsB ss = true)
    (hcfg : configRefsDeclaredB ss = true) (hids : nodupIdsB ss = true) :
    ∀ (todo done : List String) (st : RunState),
      order = done ++ todo → st.halted = false → storeCovers ss done st.store →
      (deployLoop ss (fun _ => none) todo st).halted = false ∧
      storeCovers ss (done ++ todo) (deployLoop ss (fun _ => none) todo st).store ∧
      (∀ e ∈ (deployLoop ss (fun _ => none) todo st).report,
        e ∈ st.report ∨ e.status = .succeeded) := by
  intro todo
  induction todo with
  | nil =>
    intro done st _ hhalt hcover
    rw [deployLoop_nil]
    exact ⟨hhalt, by simpa using hcover, fun e he => Or.inl he⟩
  | cons name rest ih =>
    intro done st horder hhalt hcover
    obtain ⟨s, resolved, res, hfind, hs, hsname, hres, hrecon, hstep, hagree, hmat, hcover'⟩ :=
      run1_step ss order hnodup htopo hordnodup hnames href hwf hcfg hids
        done name rest horder st hhalt hcover
    rw [deployLoop_cons]
    have hhalt' : (deployStep ss (fun _ => none) st name).halted = false := by
      rw [hstep]
    obtain ⟨hfh, hfc, hfr⟩ := ih (done ++ [name]) (deployStep ss (fun _ => none) st name)
      (by rw [horder]; simp) hhalt' hcover'
    refine ⟨hfh, by simpa using hfc, ?_⟩
    intro e he
    rcases hfr e he with he2 | he2
    · rw [hstep] at he2
      rcases List.mem_append.mp he2 with he3 | he3
      · exact Or.inl he3
      · rw [List.mem_singleton] at he3
        right
        rw [he3]
    · exact Or.inr he2

/-- Re-running the remaining order against the already-converged live
state: the second run changes nothing, re-records the same outputs, and
reports every stack Succeeded with zero creates and updates — everything
classified Unchanged. -/
theorem rerun_loop (ss : List StackDef) (order : List String)
    (hnodup : (stackNames ss).Nodup) (htopo : placesAfterProducers ss order)
    (hordnodup : order.Nodup) (hnames : ∀ n ∈ order, n ∈ stackNames ss)
    (href : knownRefsB ss = true) (hwf : wellFormedOutputsB ss = true)
    (hcfg : configRefsDeclaredB ss = true) (hids : nodupIdsB ss = true) :
    ∀ (todo done : List String) (st₁ st₂ : RunState),
      order = done ++ todo →
      st₁.halted = false → storeCovers ss done st₁.store →
      st₂.store = st₁.store →
      st₂.live = (deployLoop ss (fun _ => none) todo st₁).live →
      st₂.halted = false →
      (deployLoop ss (fun _ => none) todo st₂).store =
        (deployLoop ss (fun _ => none) todo st₁).store ∧
      (deployLoop ss (fun _ => none) todo st₂).live = st₂.live ∧
      (deployLoop ss (fun _ => none) todo st₂).halted = false ∧
      ∀ e ∈ (deployLoop ss (fun _ => none) todo st₂).report,
        e ∈ st₂.report ∨ (e.status = .succeeded ∧ e.created = [] ∧ e.updated = [] ∧
          ∃ s ∈ ss, s.name = e.stackName ∧
            e.unchangedIds = s.resources.map (fun r => r.id)) := by
  intro todo
  induction todo with
  | nil =>
    intro done st₁ st₂ _ _ _ hstore hlive _
    rw [deployLoop_nil] at *
    exact ⟨hstore, rfl, by assumption, fun e he => Or.inl he⟩
  | cons name rest ih =>
    intro done st₁ st₂ horder h1halt h1cover hstore hlive h2halt
    obtain ⟨s, resolved, res, hfind, hs, hsname, hres1, hrecon1, hstep1, hagree, hmat, hcover'⟩ :=
      run1_step ss order hnodup htopo hordnodup hnames href hwf hcfg hids
        done name rest horder st₁ h1halt h1cover
    have hnamenotrest : name ∉ rest := by
      have h2 := hordnodup
      rw [horder] at h2
      exact (List.nodup_cons.mp (List.nodup_append.mp h2).2.1).1
    have hstep1halt : (deployStep ss (fun _ => none) st₁ name).halted = false := by
      rw [hstep1]
    have hstep1live : (deployStep ss (fun _ => none) st₁ name).live = res.newLive := by
      rw [hstep1]
    have hstep1store : (deployStep ss (fun _ => none) st₁ name).store =
        st₁.store ++ res.outputs.map (fun o => ((s.name, o.1), o.2)) := by
      rw [hstep1]
    -- live state of the stack s never changes after its own step in run 1
    have hpreserve : ∀ rid, keyFind (deployLoop ss (fun _ => none) (name :: rest) st₁).live
        (s.name, rid) = keyFind res.newLive (s.name, rid) := by
      intro rid
      rw [deployLoop_cons, deployLoop_live_keys rest _ s.name rid
        (by rw [hsname]; exact hnamenotrest), hstep1live]
    -- run 2 resolves identically
    have hres2 : resolve s.requiredInputs st₂.store = .ok resolved := by
      rw [hstore]
      exact hres1
    -- run 2's live already matches every desired configuration
    have hmatch : ∀ r ∈ s.resources, ∃ d, materializeConfig resolved r.config = some d ∧
        keyFind st₂.live (s.name, r.id) = some d := by
      intro r hr
      obtain ⟨d, hd⟩ := hmat r hr
      refine ⟨d, hd, ?_⟩
      rw [hlive, hpreserve r.id]
      exact hagree r hr d hd
    have happ2 : applyResources s.name resolved s.resources st₂.live =
        .ok ([], [], s.resources.map (fun r => r.id), st₂.live) :=
      applyResources_unchanged s.resources st₂.live hmatch
    have hcongr : ∀ rid, keyFind st₂.live (s.name, rid) = keyFind res.newLive (s.name, rid) := by
      intro rid
      rw [hlive, hpreserve rid]
    have hread2 : readOutputs s.name st₂.live s.producedOutputs = .ok res.outputs := by
      rw [readOutputs_congr hcongr s.producedOutputs]
      exact (reconcileStack_ok_elim hrecon1).2.2
    have hrecon2 : reconcileStack (fun _ => none) s resolved st₂.live =
        .ok ⟨[], [], s.resources.map (fun r => r.id), res.outputs, st₂.live⟩ :=
      reconcileStack_eq_ok rfl happ2 hread2
    have hstep2 := deployStep_of_ok h2halt hfind hres2 hrecon2
    have hstep2store : (deployStep ss (fun _ => none) st₂ name).store =
        (deployStep ss (fun _ => none) st₁ name).store := by
      rw [hstep2, hstep1store, hstore]
    have hstep2live : (deployStep ss (fun _ => none) st₂ name).live = st₂.live := by
      rw [hstep2]
    have hstep2halt : (deployStep ss (fun _ => none) st₂ name).halted = false := by
      rw [hstep2]
    have hstep2report : (deployStep ss (fun _ => none) st₂ name).report =
        st₂.report ++ [⟨name, .succeeded, [], [],
          s.resources.map (fun r => r.id), resolved, none⟩] := by
      rw [hstep2]
    rw [deployLoop_cons, @deployLoop_cons ss (fun _ => none) st₁ name rest]
    obtain ⟨hfs, hfl, hfh, hfr⟩ := ih (done ++ [name])
      (deployStep ss (fun _ => none) st₁ name) (deployStep ss (fun _ => none) st₂ name)
      (by rw [horder]; simp) hstep1halt hcover' hstep2store
      (by rw [hstep2live, hlive, deployLoop_cons]) hstep2halt
    refine ⟨hfs, by rw [hfl, hstep2live], hfh, ?_⟩
    intro e he
    rcases hfr e he with he2 | he2
    · rw [hstep2report] at he2
      rcases List.mem_append.mp he2 with he3 | he3
      · exact Or.inl he3
      · rw [List.mem_singleton] at he3
        right
        rw [he3]
        exact ⟨rfl, rfl, rfl, s, hs, hsname, rfl⟩
    · exact Or.inr he2

/-- C6: deploy is idempotent.  On a well-formed stack set a failure-free
run reports every stack Succeeded; running deploy again with the
unchanged desired state against the converged live state performs zero
create and zero update operations — every already-Succeeded stack is
re-reconciled with all of its resources classified Unchanged — and
leaves both the Output Store and the live state exactly as the first
run left them. -/
theorem deploy_idempotent (ss : List StackDef) (live₀ : Live) (order : List String)
    (hnodup : (stackNames ss).Nodup)
    (hok : buildGraph ss = .ok order)
    (hwf : wellFormedOutputsB ss = true) (hcfg : configRefsDeclaredB ss = true)
    (hids : nodupIdsB ss = true)
    (st₁ st₂ : RunState)
    (h1 : deploy ss (fun _ => none) live₀ = .ok st₁)
    (h2 : deploy ss (fun _ => none) st₁.live = .ok st₂) :
    (∀ e ∈ st₁.report, e.status = .succeeded) ∧
    (∀ e ∈ st₂.report, e.status = .succeeded ∧ e.created = [] ∧ e.updated = [] ∧
      ∃ s ∈ ss, s.name = e.stackName ∧
        e.unchangedIds = s.resources.map (fun r => r.id)) ∧
    st₂.store = st₁.store ∧ st₂.live = st₁.live := by
  have htopo := buildGraph_places hnodup hok
  have hordnodup := buildGraph_ok_nodup hnodup hok
  have hnames := buildGraph_ok_names hnodup hok
  have href := knownRefs_of_buildGraph_ok hok
  have hst1 : st₁ = deployLoop ss (fun _ => none) order (initState live₀) :=
    (Except.ok.injEq _ _).mp (h1.symm.trans (deploy_eq_ok hok))
  have hst2 : st₂ = deployLoop ss (fun _ => none) order (initState st₁.live) :=
    (Except.ok.injEq _ _).mp (h2.symm.trans (deploy_eq_ok hok))
  have hcover0 : storeCovers ss [] (initState live₀).store :=
    fun sp _ h => absurd h (List.not_mem_nil _)
  obtain ⟨h1halt, h1cover, h1rep⟩ :=
    run1_loop ss order hnodup htopo hordnodup hnames href hwf hcfg hids
      order [] (initState live₀) (by simp) rfl hcover0
  obtain ⟨hfs, hfl, hfh, hfr⟩ :=
    rerun_loop ss order hnodup htopo hordnodup hnames href hwf hcfg hids
      order [] (initState live₀) (initState st₁.live) (by simp) rfl hcover0 rfl
      (by rw [initState, hst1]) rfl
  refine ⟨?_, ?_, ?_, ?_⟩
  · intro e he
    rw [hst1] at he
    rcases h1rep e he with he2 | he2
    · exact absurd he2 (by simp [initState])
    · exact he2
  · intro e he
    rw [hst2] at he
    rcases hfr e he with he2 | he2
    · exact absurd he2 (by simp [initState])
    · exact he2
  · rw [hst1, hst2]
    exact hfs
  · rw [hst2]
    exact hfl

/-- Witness for C6 at the concrete scenario: the second run reports only
Unchanged reconciliations and changes neither store nor live state. -/
theorem deploy_idempotent_witness :
    (∀ e ∈ scenarioRun1.report, e.status = .succeeded) ∧
    (∀ e ∈ scenarioRun2.report, e.status = .succeeded ∧ e.created = [] ∧ e.updated = [] ∧
      ∃ s ∈ scenarioStacks, s.name = e.stackName ∧
        e.unchangedIds = s.resources.map (fun r => r.id)) ∧
    scenarioRun2.store = scenarioRun1.store ∧ scenarioRun2.live = scenarioRun1.live :=
  deploy_idempotent scenarioStacks [] ["Dns", "CiCd", "App", "Monitoring"]
    (by decide) rfl (by decide) (by decide) (by decide)
    scenarioRun1 scenarioRun2 rfl rfl

/-- Record keys of one stack's outputs are pairwise distinct when the
output names are. -/
theorem nodup_outputs_pair {sn : String} {outs : List (String × String)}
    (h : (outs.map Prod.fst).Nodup) :
    ((outs.map (fun o => ((sn, o.1), o.2))).map Prod.fst).Nodup := by
  have heq : (outs.map (fun o => ((sn, o.1), o.2))).map Prod.fst =
      (outs.map Prod.fst).map (fun x => (sn, x)) := by
    rw [List.map_map, List.map_map]
    rfl
  rw [heq]
  exact h.map (fun a b hab => (Prod.mk.injEq _ _ _ _ ▸ hab).2)

/-- One orchestrator step keeps every store entry owned by a Succeeded
report entry. -/
theorem store_succeeded_step {ss : List StackDef} {inject : String → Option String}
    {st : RunState} {name : String}
    (h : ∀ p ∈ st.store, ∃ e ∈ st.report, e.stackName = p.1.1 ∧ e.status = .succeeded) :
    ∀ p ∈ (deployStep ss inject st name).store,
      ∃ e ∈ (deployStep ss inject st name).report,
        e.stackName = p.1.1 ∧ e.status = .succeeded := by
  obtain ⟨entry, _, hrep⟩ :=
    @deployStep_report ss inject st name
  have hold : ∀ p ∈ st.store, ∃ e ∈ (deployStep ss inject st name).report,
      e.stackName = p.1.1 ∧ e.status = .succeeded := by
    intro p hp
    obtain ⟨e, he, h1, h2⟩ := h p hp
    exact ⟨e, by rw [hrep]; exact List.mem_append_left _ he, h1, h2⟩
  by_cases hh : st.halted = true
  · rw [deployStep_of_halted hh] at hold ⊢
    exact hold
  · rw [Bool.not_eq_true] at hh
    cases hf : findStack ss name with
    | none => rw [deployStep_of_none hh hf] at hold ⊢; exact hold
    | some s =>
      cases hr : resolve s.requiredInputs st.store with
      | error r => rw [deployStep_of_unresolved hh hf hr] at hold ⊢; exact hold
      | ok resolved =>
        cases hc : reconcileStack inject s resolved st.live with
        | error e => rw [deployStep_of_reconcile_error hh hf hr hc] at hold ⊢; exact hold
        | ok res =>
          have hstep := deployStep_of_ok hh hf hr hc
          rw [hstep]
          intro p hp
          rcases List.mem_append.mp hp with hp1 | hp1
          · obtain ⟨e, he, h1, h2⟩ := h p hp1
            exact ⟨e, List.mem_append_left _ he, h1, h2⟩
          · obtain ⟨o, _, rfl⟩ := List.mem_map.mp hp1
            refine ⟨⟨name, .succeeded, res.created, res.updated, res.unchangedIds,
              resolved, none⟩, List.mem_append_right _ (List.mem_singleton_self _), ?_, rfl⟩
            show name = s.name
            exact (findStack_spec hf).2.symm

/-- A run keeps every store entry owned by a Succeeded report entry. -/
theorem store_succeeded_loop {ss : List StackDef} {inject : String → Option String} :
    ∀ (todo : List String) (st : RunState),
      (∀ p ∈ st.store, ∃ e ∈ st.report, e.stackName = p.1.1 ∧ e.status = .succeeded) →
      ∀ p ∈ (deployLoop ss inject todo st).store,
        ∃ e ∈ (deployLoop ss inject todo st).report,
          e.stackName = p.1.1 ∧ e.status = .succeeded := by
  intro todo
  induction todo with
  | nil => intro st h; rw [deployLoop_nil]; exact h
  | cons n rest ih =>
    intro st h
    rw [deployLoop_cons]
    exact ih _ (store_succeeded_step h)

/-- A run never records the same `(stackName, outputName)` key twice, and
only records keys of stacks it processed. -/
theorem deployLoop_store_keys {ss : List StackDef} {inject : String → Option String}
    (hnodupOut : nodupOutputsB ss = true) :
    ∀ (todo : List String) (st : RunState) (D : List String),
      (∀ p ∈ st.store, p.1.1 ∈ D) → ((st.store.map Prod.fst).Nodup) →
      (∀ n ∈ todo, n ∉ D) → todo.Nodup →
      ((deployLoop ss inject todo st).store.map Prod.fst).Nodup ∧
        ∀ p ∈ (deployLoop ss inject todo st).store, p.1.1 ∈ D ++ todo := by
  intro todo
  induction todo with
  | nil =>
    intro st D hD hk _ _
    rw [deployLoop_nil]
    exact ⟨hk, fun p hp => by simpa using hD p hp⟩
  | cons n rest ih =>
    intro st D hD hk hdisj hnd
    rw [deployLoop_cons]
    have hmain : ∀ st' : RunState,
        (∀ p ∈ st'.store, p.1.1 ∈ D ++ [n]) → ((st'.store.map Prod.fst).Nodup) →
        ((deployLoop ss inject rest st').store.map Prod.fst).Nodup ∧
          ∀ p ∈ (deployLoop ss inject rest st').store, p.1.1 ∈ D ++ n :: rest := by
      intro st' hD' hk'
      obtain ⟨h1, h2⟩ := ih st' (D ++ [n]) hD' hk'
        (fun m hm hmem => by
          rcases List.mem_append.mp hmem with h3 | h3
          · exact hdisj m (List.mem_cons_of_mem _ hm) h3
          · rw [List.mem_singleton] at h3
            exact (List.nodup_cons.mp hnd).1 (h3 ▸ hm))
        (List.nodup_cons.mp hnd).2
      refine ⟨h1, fun p hp => ?_⟩
      have h3 := h2 p hp
      rwa [List.append_assoc, List.singleton_append] at h3
    by_cases hh : st.halted = true
    · rw [deployStep_of_halted hh]
      exact hmain _ (fun p hp => List.mem_append_left _ (hD p hp)) hk
    · rw [Bool.not_eq_true] at hh
      cases hf : findStack ss n with
      | none =>
        rw [deployStep_of_none hh hf]
        exact hmain _ (fun p hp => List.mem_append_left _ (hD p hp)) hk
      | some s =>
        cases hr : resolve s.requiredInputs st.store with
        | error r =>
          rw [deployStep_of_unresolved hh hf hr]
          exact hmain _ (fun p hp => List.mem_append_left _ (hD p hp)) hk
        | ok resolved =>
          cases hc : reconcileStack inject s resolved st.live with
          | error e =>
            rw [deployStep_of_reconcile_error hh hf hr hc]
            exact hmain _ (fun p hp => List.mem_append_left _ (hD p hp)) hk
          | ok res =>
            obtain ⟨hsmem, hsname⟩ := findStack_spec hf
            have houtnd : (res.outputs.map Prod.fst).Nodup := by
              have h2 : res.outputs.map (fun o => o.1) =
                  s.producedOutputs.map (fun o => o.1) := reconcileStack_ok_outputs hc
              have h3 : (s.producedOutputs.map (fun o => o.1)).Nodup :=
                of_decide_eq_true (List.all_eq_true.mp hnodupOut s hsmem)
              rw [show (res.outputs.map Prod.fst) = res.outputs.map (fun o => o.1) from rfl, h2]
              exact h3
            rw [deployStep_of_ok hh hf hr hc]
            refine hmain _ ?_ ?_
            · intro p hp
              rcases List.mem_append.mp hp with hp1 | hp1
              · exact List.mem_append_left _ (hD p hp1)
              · obtain ⟨o, _, rfl⟩ := List.mem_map.mp hp1
                refine List.mem_append_right _ ?_
                rw [List.mem_singleton]
                exact hsname
            · show ((st.store ++ res.outputs.map (fun o => ((s.name, o.1), o.2))).map
                Prod.fst).Nodup
              rw [List.map_append]
              refine List.Nodup.append hk (nodup_outputs_pair houtnd) ?_
              intro k hk1 hk2
              obtain ⟨p, hp, rfl⟩ := List.mem_map.mp hk1
              obtain ⟨q, hq2, hq⟩ := List.mem_map.mp hk2
              obtain ⟨o, -, rfl⟩ := List.mem_map.mp hq2
              have h4 : p.1.1 = s.name := by rw [← hq]
              exact hdisj n (List.mem_cons_self _ _) (by rw [← hsname, ← h4]; exact hD p hp)

/-- C7: the Output Store is append-only.  Within one run, at every split
of the deployment order the final store extends the intermediate store by
a suffix, so every operation only adds entries; no
`(stackName, outputName)` record key is ever written twice, so an
existing entry is never overwritten; every recorded entry belongs to a
stack whose report entry is Succeeded; and a second failure-free run
against the converged live state — whose re-reconciliation leaves every
stack Unchanged, so no stack's outputs change — keeps each Succeeded
stack's recorded outputs exactly as the first run recorded them. -/
theorem output_store_append_only (ss : List StackDef)
    (inject : String → Option String) (live₀ : Live) (order : List String)
    (st : RunState)
    (hnodup : (stackNames ss).Nodup) (hnodupOut : nodupOutputsB ss = true)
    (hok : buildGraph ss = .ok order)
    (hst : deploy ss inject live₀ = .ok st) :
    (∀ done todo, order = done ++ todo →
      ∃ extra, st.store = (deployLoop ss inject done (initState live₀)).store ++ extra) ∧
    (st.store.map Prod.fst).Nodup ∧
    (∀ p ∈ st.store, ∃ e ∈ st.report, e.stackName = p.1.1 ∧ e.status = .succeeded) ∧
    (inject = (fun _ => none) → wellFormedOutputsB ss = true →
      configRefsDeclaredB ss = true → nodupIdsB ss = true →
      ∀ st₂, deploy ss (fun _ => none) st.live = .ok st₂ → st₂.store = st.store) := by
  have hordnodup := buildGraph_ok_nodup hnodup hok
  have hsteq : st = deployLoop ss inject order (initState live₀) :=
    (Except.ok.injEq _ _).mp (hst.symm.trans (deploy_eq_ok hok))
  refine ⟨?_, ?_, ?_, ?_⟩
  · intro done todo horder
    obtain ⟨extra, hextra⟩ := deployLoop_store_extends todo
      (deployLoop ss inject done (initState live₀))
    exact ⟨extra, by rw [hsteq, horder, deployLoop_append]; exact hextra⟩
  · rw [hsteq]
    exact (deployLoop_store_keys hnodupOut order (initState live₀) []
      (fun p hp => absurd hp (List.not_mem_nil p))
      (by simp [initState]) (fun n _ hn => absurd hn (List.not_mem_nil n)) hordnodup).1
  · rw [hsteq]
    exact store_succeeded_loop order (initState live₀)
      (fun p hp => absurd hp (List.not_mem_nil p))
  · intro hinj hwf hcfg hids st₂ h2
    subst hinj
    have htopo := buildGraph_places hnodup hok
    have hnames := buildGraph_ok_names hnodup hok
    have href := knownRefs_of_buildGraph_ok hok
    have hst2 : st₂ = deployLoop ss (fun _ => none) order (initState st.live) :=
      (Except.ok.injEq _ _).mp (h2.symm.trans (deploy_eq_ok hok))
    have hcover0 : storeCovers ss [] (initState live₀).store :=
      fun sp _ h => absurd h (List.not_mem_nil _)
    obtain ⟨hfs, -, -, -⟩ :=
      rerun_loop ss order hnodup htopo hordnodup hnames href hwf hcfg hids
        order [] (initState live₀) (initState st.live) (by simp) rfl hcover0 rfl
        (by rw [initState, hsteq]) rfl
    rw [hst2, hfs, hsteq]

/-- Witness for C7 at the concrete scenario: the first run's store has no
duplicated record key, every record is owned by a Succeeded stack, and
the second run leaves the store unchanged. -/
theorem output_store_append_only_witness :
    ((scenarioRun1.store.map Prod.fst).Nodup ∧
      ∀ p ∈ scenarioRun1.store, ∃ e ∈ scenarioRun1.report,
        e.stackName = p.1.1 ∧ e.status = .succeeded) ∧
    scenarioRun2.store = scenarioRun1.store := by
  have H := output_store_append_only scenarioStacks (fun _ => none) []
    ["Dns", "CiCd", "App", "Monitoring"] scenarioRun1
    (by decide) (by decide) rfl rfl
  exact ⟨⟨H.2.1, H.2.2.1⟩,
    H.2.2.2 rfl (by decide) (by decide) (by decide) scenarioRun2 rfl⟩

end AcmeDental
